import Mathlib

/-! Shallow embedding of `base254.c` (base-254).

Bytes (`unsigned char`) are natural numbers below 256 and a buffer is the list
of the bytes of the memory object a pointer designates.  `size_t` is an
unsigned integer of `w` bits: the counters `usage_count[..]` and
`requiredSize`, the constant `(size_t)-1` and the subtractions
`requiredSize-1` and `strlen(data)-4` are written with an explicit `% 2 ^ w`.
The offsets `i` and `k` are positions in a list: they count bytes of a buffer
that exists, and a store at offset `k` is defined only below the allocated
size.  An access outside a buffer has no defined result in C; the embedding
makes it the outcome `Run.undefined`.  `safe_malloc` aborts the process when
`malloc` returns `NULL`; the embedding makes it the outcome `Run.aborted`
where the request cannot be satisfied: in `base254_decode_n`, when the
wrapped `strlen(data)-4` asks for `2^w - 4` bytes or more.  Every other
allocation is taken to succeed.
-/

namespace Base254

/-- Outcome of running a function of the library: the run performs an access
outside the object it works on (no defined result), or the assertion of
`safe_malloc` aborts it, or it returns. -/
inductive Run (α : Type) where
  | undefined : Run α
  | aborted : Run α
  | returns (a : α) : Run α
  deriving DecidableEq, Repr

/-- Decoded result, `base254_data` of `base254.h`: `data` holds the `size`
bytes the decoder has written at the start of its allocation. -/
structure base254_data where
  data : List Nat
  size : Nat
  deriving DecidableEq, Repr

/-- Largest `size_t`, the value of `(size_t)-1`. -/
def SIZE_MAX (w : Nat) : Nat := 2 ^ w - 1

/-- The statement `buf[k] = v; k++` on an allocation of `cap` bytes, where
`buf` lists the `k = buf.length` bytes stored so far (stores go to consecutive
offsets from 0): defined only when offset `k` lies inside the allocation. -/
def store (cap : Nat) (buf : List Nat) (v : Nat) : Run (List Nat) :=
  if buf.length < cap then Run.returns (buf ++ [v]) else Run.undefined

/-- Library function `strlen`: offset of the first zero byte; it runs off the
buffer when there is none. -/
def strlen : List Nat → Run Nat
  | [] => Run.undefined
  | c :: rest =>
    if c = 0 then Run.returns 0
    else match strlen rest with
      | Run.undefined => Run.undefined
      | Run.aborted => Run.aborted
      | Run.returns l => Run.returns (l + 1)

/-- Library function `strnlen`: offset of the first zero byte among the first
`n` bytes, or `n` when there is none. -/
def strnlen : List Nat → Nat → Run Nat
  | _, 0 => Run.returns 0
  | [], _ + 1 => Run.undefined
  | c :: rest, n + 1 =>
    if c = 0 then Run.returns 0
    else match strnlen rest n with
      | Run.undefined => Run.undefined
      | Run.aborted => Run.aborted
      | Run.returns l => Run.returns (l + 1)

/-! ## Encoder -/

/-- Body of the first loop of `base254_encode_with_escapes`: one
`requiredSize++` for a byte equal to a marker, then one for every byte. -/
def size_step (w nullReplacement escapeByte : Nat) (r d : Nat) : Nat :=
  ((if d = nullReplacement ∨ d = escapeByte then (r + 1) % 2 ^ w else r) + 1) % 2 ^ w

/-- First loop of `base254_encode_with_escapes`, from `requiredSize = 4`,
followed by the final `requiredSize++`: the number of bytes to allocate. -/
def requiredSize (w : Nat) (data : List Nat) (nullReplacement escapeByte : Nat) : Nat :=
  (data.foldl (size_step w nullReplacement escapeByte) 4 + 1) % 2 ^ w

/-- Second loop of `base254_encode_with_escapes`, run on the input bytes not
yet consumed; `encoded` lists the bytes stored so far, so `k = encoded.length`.
The guard `k < requiredSize-1` is an unsigned comparison. -/
def encode_loop (w reqSize nullReplacement escapeByte : Nat) :
    List Nat → List Nat → Run (List Nat)
  | [], encoded => Run.returns encoded
  | d :: rest, encoded =>
    if encoded.length < (reqSize + 2 ^ w - 1) % 2 ^ w then
      if d = 0 then
        match store reqSize encoded nullReplacement with
        | Run.undefined => Run.undefined
        | Run.aborted => Run.aborted
        | Run.returns e1 => encode_loop w reqSize nullReplacement escapeByte rest e1
      else if d = nullReplacement ∨ d = escapeByte then
        match store reqSize encoded escapeByte with
        | Run.undefined => Run.undefined
        | Run.aborted => Run.aborted
        | Run.returns e1 =>
          match store reqSize e1 d with
          | Run.undefined => Run.undefined
          | Run.aborted => Run.aborted
          | Run.returns e2 => encode_loop w reqSize nullReplacement escapeByte rest e2
      else
        match store reqSize encoded d with
        | Run.undefined => Run.undefined
        | Run.aborted => Run.aborted
        | Run.returns e1 => encode_loop w reqSize nullReplacement escapeByte rest e1
    else Run.returns encoded

/-- Header stores of `base254_encode_with_escapes`: `'b'`, 254 and the two
markers at offsets 0 to 3. -/
def encode_header (reqSize nullReplacement escapeByte : Nat) : Run (List Nat) :=
  match store reqSize [] 98 with
  | Run.undefined => Run.undefined
  | Run.aborted => Run.aborted
  | Run.returns e1 =>
    match store reqSize e1 254 with
    | Run.undefined => Run.undefined
    | Run.aborted => Run.aborted
    | Run.returns e2 =>
      match store reqSize e2 nullReplacement with
      | Run.undefined => Run.undefined
      | Run.aborted => Run.aborted
      | Run.returns e3 => store reqSize e3 escapeByte

/-- Function `base254_encode_with_escapes`; `length` is `data.length`.  The
result is the content of the whole allocation of `requiredSize` bytes: the
bytes stored, then the zero fill of `safe_malloc` where nothing was stored. -/
def base254_encode_with_escapes (w : Nat) (data : List Nat)
    (nullReplacement escapeByte : Nat) : Run (List Nat) :=
  let reqSize := requiredSize w data nullReplacement escapeByte
  match encode_header reqSize nullReplacement escapeByte with
  | Run.undefined => Run.undefined
  | Run.aborted => Run.aborted
  | Run.returns header =>
    match encode_loop w reqSize nullReplacement escapeByte data header with
    | Run.undefined => Run.undefined
    | Run.aborted => Run.aborted
    | Run.returns body =>
      match store reqSize body 0 with
      | Run.undefined => Run.undefined
      | Run.aborted => Run.aborted
      | Run.returns encoded =>
        Run.returns (encoded ++ List.replicate (reqSize - encoded.length) 0)

/-! ## Frequency analysis -/

/-- The histogram loops of `base254_encode`: 256 counters set to 0, then one
`usage_count[data[i]]++` for each input byte. -/
def usage_count (w : Nat) (data : List Nat) : List Nat :=
  data.foldl (fun uc d => uc.set d ((uc.getD d 0 + 1) % 2 ^ w)) (List.replicate 256 0)

/-- Body of the loop that looks for the least used byte; the state is
`(minUse, minUsedChar)`. -/
def min_step (uc : List Nat) (st : Nat × Nat) (i : Nat) : Nat × Nat :=
  if uc.getD i 0 < st.1 then (uc.getD i 0, i % 256) else st

/-- The loop `for (int i=1; i < 256; i++)` that looks for the least used byte,
from `minUse = (size_t)-1` and `minUsedChar = 1`. -/
def min_scan (w : Nat) (uc : List Nat) : Nat × Nat :=
  (List.range' 1 255).foldl (min_step uc) (SIZE_MAX w, 1)

/-- Body of the loop that looks for the second least used byte; the state is
`(secondMinUse, secondMinUsedChar)`. -/
def second_step (uc : List Nat) (minUsedChar : Nat) (st : Nat × Nat) (i : Nat) : Nat × Nat :=
  if i = minUsedChar then st
  else if uc.getD i 0 < st.1 then (uc.getD i 0, i % 256) else st

/-- The loop that looks for the second least used byte, skipping `minUsedChar`. -/
def second_scan (w : Nat) (uc : List Nat) (minUsedChar : Nat) : Nat × Nat :=
  (List.range' 1 255).foldl (second_step uc minUsedChar) (SIZE_MAX w, 1)

/-- Value of `minUse` after the first scan of `base254_encode`. -/
def minUse (w : Nat) (data : List Nat) : Nat := (min_scan w (usage_count w data)).1

/-- Value of `minUsedChar` after the first scan of `base254_encode`. -/
def minUsedChar (w : Nat) (data : List Nat) : Nat := (min_scan w (usage_count w data)).2

/-- Value of `secondMinUsedChar` after the second scan of `base254_encode`. -/
def secondMinUsedChar (w : Nat) (data : List Nat) : Nat :=
  (second_scan w (usage_count w data) (minUsedChar w data)).2

/-- The marker pair `(null_replacement, escape_byte)` that `base254_encode`
hands to `base254_encode_with_escapes`. -/
def markers (w : Nat) (data : List Nat) : Nat × Nat :=
  if minUse w data = 0 then (minUsedChar w data, minUsedChar w data)
  else (minUsedChar w data, secondMinUsedChar w data)

/-- Function `base254_encode`; `length` is `data.length`. -/
def base254_encode (w : Nat) (data : List Nat) : Run (List Nat) :=
  base254_encode_with_escapes w data (markers w data).1 (markers w data).2

/-! ## Decoder -/

/-- The body scan of `base254_decode_n`, run on `rest`, the bytes of the buffer
from offset `i` on; `output` lists the bytes stored so far (`k = output.length`)
in an allocation of `dataLen` bytes.  Reading `data[i]` past the end of the
buffer is undefined. -/
def decode_loop (nullReplacement escapeByte n dataLen : Nat) :
    List Nat → Nat → Bool → List Nat → Run (List Nat)
  | [], i, _, output => if i < n ∨ n = 0 then Run.undefined else Run.returns output
  | c :: rest, i, escape, output =>
    if (i < n ∨ n = 0) ∧ c ≠ 0 then
      if escape then
        match store dataLen output c with
        | Run.undefined => Run.undefined
        | Run.aborted => Run.aborted
        | Run.returns o => decode_loop nullReplacement escapeByte n dataLen rest (i + 1) false o
      else if c = escapeByte ∧ escapeByte ≠ nullReplacement then
        decode_loop nullReplacement escapeByte n dataLen rest (i + 1) true output
      else if c = nullReplacement then
        match store dataLen output 0 with
        | Run.undefined => Run.undefined
        | Run.aborted => Run.aborted
        | Run.returns o => decode_loop nullReplacement escapeByte n dataLen rest (i + 1) false o
      else
        match store dataLen output c with
        | Run.undefined => Run.undefined
        | Run.aborted => Run.aborted
        | Run.returns o => decode_loop nullReplacement escapeByte n dataLen rest (i + 1) false o
    else Run.returns output

/-- The length expression `n == 0 ? strlen(data)-4 : strnlen(data, n)-4` of
`base254_decode_n`, an unsigned subtraction. -/
def dataLen (w : Nat) (data : List Nat) (n : Nat) : Run Nat :=
  match (if n = 0 then strlen data else strnlen data n) with
  | Run.undefined => Run.undefined
  | Run.aborted => Run.aborted
  | Run.returns l => Run.returns ((l + 2 ^ w - 4) % 2 ^ w)

/-- Function `base254_decode_n`: `Run.returns none` is the `NULL` result.
The call `safe_malloc(dataLen)` aborts the run when `dataLen` is `2^w - 4` or
more: the four header bytes just read are in the address space, so `malloc`
has no object of that size to return and the assertion fails.  Any smaller
request is taken to succeed. -/
def base254_decode_n (w : Nat) (data : List Nat) (n : Nat) : Run (Option base254_data) :=
  if n < 4 ∧ n ≠ 0 then Run.returns none
  else
    match data with
    | [] => Run.undefined
    | d0 :: t0 =>
      if d0 ≠ 98 then Run.returns none
      else
        match t0 with
        | [] => Run.undefined
        | d1 :: t1 =>
          if d1 ≠ 254 then Run.returns none
          else
            match t1 with
            | nullReplacement :: escapeByte :: body =>
              match dataLen w data n with
              | Run.undefined => Run.undefined
              | Run.aborted => Run.aborted
              | Run.returns len =>
                if 2 ^ w ≤ len + 4 then Run.aborted
                else
                  match decode_loop nullReplacement escapeByte n len body 4 false [] with
                  | Run.undefined => Run.undefined
                  | Run.aborted => Run.aborted
                  | Run.returns output => Run.returns (some ⟨output, output.length⟩)
            | _ => Run.undefined

/-- Function `base254_decode`. -/
def base254_decode (w : Nat) (data : List Nat) : Run (Option base254_data) :=
  base254_decode_n w data 0

/-! ## Reference definitions -/

/-- Number of input bytes equal to one of the two markers. -/
def escapes (nr eb : Nat) (S : List Nat) : Nat :=
  S.countP (fun d => decide (d = nr ∨ d = eb))

/-- The bytes the encoder emits for one input byte, as the specification
words it: `0` gives the null replacement, a non-zero byte equal to a marker
gives the escape pair, any other byte gives itself. -/
def spec_f (nr eb b : Nat) : List Nat :=
  if b = 0 then [nr]
  else if b = nr ∨ b = eb then [eb, b]
  else [b]

/-- The encoded buffer as the specification words it: header, the images of
the input bytes in input order, terminator. -/
def spec_encode (S : List Nat) (nr eb : Nat) : List Nat :=
  [98, 254, nr, eb] ++ (S.map (spec_f nr eb)).flatten ++ [0]

/-- The transformed payload of an input. -/
def payload (nr eb : Nat) (S : List Nat) : List Nat :=
  (S.map (spec_f nr eb)).flatten

/-- Loop invariant of the two marker scans after the candidates `1 .. n`:
the state `st` is still the initial `(m0, x0)` and no admissible candidate
has a count below `m0`, or it holds the first admissible candidate of least
count and that count.  A candidate is admissible when it is not `excl`. -/
def ScanInv (c : Nat → Nat) (excl m0 x0 n : Nat) (st : Nat × Nat) : Prop :=
  (st = (m0, x0) ∧ ∀ y, 1 ≤ y → y ≤ n → y ≠ excl → m0 ≤ c y) ∨
  (1 ≤ st.2 ∧ st.2 ≤ n ∧ st.2 ≠ excl ∧ st.1 = c st.2 ∧ st.1 < m0 ∧
    ∀ y, 1 ≤ y → y ≤ n → y ≠ excl → (st.1 ≤ c y ∧ (y < st.2 → st.1 < c y)))

/-- The two-state body scan as the specification words it, over payload
bytes: `escaped` is the current state (`false` is `Normal`, `true` is
`Escaped`); the result is the final state and the emitted bytes. -/
def spec_scan (nr eb : Nat) : Bool → List Nat → Bool × List Nat
  | escaped, [] => (escaped, [])
  | true, c :: rest =>
    ((spec_scan nr eb false rest).1, c :: (spec_scan nr eb false rest).2)
  | false, c :: rest =>
    if c = eb ∧ eb ≠ nr then spec_scan nr eb true rest
    else if c = nr then
      ((spec_scan nr eb false rest).1, 0 :: (spec_scan nr eb false rest).2)
    else ((spec_scan nr eb false rest).1, c :: (spec_scan nr eb false rest).2)

/-- Offset of the first zero byte of a buffer that starts with two non-zero
bytes, the markers `nr` and `eb`, and `plen` non-zero bytes followed by a zero. -/
def first_zero (nr eb plen : Nat) : Nat :=
  if nr = 0 then 2 else if eb = 0 then 3 else 4 + plen

/-- An input in which every value of `1 .. 255` occurs, 1 and 2 twice. -/
def every_value_input : List Nat := List.range' 1 255 ++ [1, 2]

/-- Decoding under a sentinel header with both markers `v`, as the
specification words it: a payload byte equal to `v` gives 0, any other byte
gives itself. -/
def sentinel_decode (v : Nat) (p : List Nat) : List Nat :=
  p.map (fun c => if c = v then 0 else c)

/-- The second loop of `base254_encode_with_escapes` with the test
`k < requiredSize-1` removed from its condition; the stores stay confined to
the allocation of `reqSize` bytes. -/
def encode_loop_unguarded (reqSize nullReplacement escapeByte : Nat) :
    List Nat → List Nat → Run (List Nat)
  | [], encoded => Run.returns encoded
  | d :: rest, encoded =>
    if d = 0 then
      match store reqSize encoded nullReplacement with
      | Run.undefined => Run.undefined
      | Run.aborted => Run.aborted
      | Run.returns e1 => encode_loop_unguarded reqSize nullReplacement escapeByte rest e1
    else if d = nullReplacement ∨ d = escapeByte then
      match store reqSize encoded escapeByte with
      | Run.undefined => Run.undefined
      | Run.aborted => Run.aborted
      | Run.returns e1 =>
        match store reqSize e1 d with
        | Run.undefined => Run.undefined
        | Run.aborted => Run.aborted
        | Run.returns e2 => encode_loop_unguarded reqSize nullReplacement escapeByte rest e2
    else
      match store reqSize encoded d with
      | Run.undefined => Run.undefined
      | Run.aborted => Run.aborted
      | Run.returns e1 => encode_loop_unguarded reqSize nullReplacement escapeByte rest e1

/-! ## The encoder -/

theorem payload_nil (nr eb : Nat) : payload nr eb [] = [] := rfl

theorem payload_cons (nr eb b : Nat) (S : List Nat) :
    payload nr eb (b :: S) = spec_f nr eb b ++ payload nr eb S := rfl

theorem escapes_cons (nr eb b : Nat) (S : List Nat) :
    escapes nr eb (b :: S) = escapes nr eb S + if b = nr ∨ b = eb then 1 else 0 := by
  unfold escapes
  rw [List.countP_cons]
  simp

theorem escapes_le_length (nr eb : Nat) (S : List Nat) : escapes nr eb S ≤ S.length :=
  List.countP_le_length _

/-- Without wrap-around the first loop adds one per byte and one per marker byte. -/
theorem size_loop_eq (w nr eb : Nat) (data : List Nat) :
    ∀ r, r + 2 * data.length < 2 ^ w →
      data.foldl (size_step w nr eb) r = r + data.length + escapes nr eb data := by
  induction data with
  | nil => intro r _; simp [escapes]
  | cons d rest ih =>
    intro r hr
    simp only [List.length_cons] at hr
    rw [List.foldl_cons, escapes_cons]
    by_cases hd : d = nr ∨ d = eb
    · have h1 : size_step w nr eb r d = r + 2 := by
        unfold size_step
        have hin : (r + 1) % 2 ^ w = r + 1 := Nat.mod_eq_of_lt (by omega)
        rw [if_pos hd, hin]
        exact Nat.mod_eq_of_lt (by omega)
      rw [h1, ih (r + 2) (by omega), if_pos hd]
      simp only [List.length_cons]
      omega
    · have h1 : size_step w nr eb r d = r + 1 := by
        unfold size_step
        rw [if_neg hd, Nat.mod_eq_of_lt (by omega)]
      rw [h1, ih (r + 1) (by omega), if_neg hd]
      simp only [List.length_cons]
      omega

theorem requiredSize_eq (w nr eb : Nat) (data : List Nat) (hfit : 2 * data.length + 5 < 2 ^ w) :
    requiredSize w data nr eb = data.length + escapes nr eb data + 5 := by
  unfold requiredSize
  have hle := escapes_le_length nr eb data
  rw [size_loop_eq w nr eb data 4 (by omega), Nat.mod_eq_of_lt (by omega)]
  omega

theorem spec_f_length_le (nr eb b : Nat) :
    (spec_f nr eb b).length ≤ 1 + if b = nr ∨ b = eb then 1 else 0 := by
  unfold spec_f
  split_ifs <;> simp

theorem payload_length_le (nr eb : Nat) (S : List Nat) :
    (payload nr eb S).length ≤ S.length + escapes nr eb S := by
  induction S with
  | nil => simp [payload_nil]
  | cons b rest ih =>
    rw [payload_cons, List.length_append, escapes_cons, List.length_cons]
    have := spec_f_length_le nr eb b
    omega

theorem spec_f_length (nr eb b : Nat) (hnr : nr ≠ 0) (heb : eb ≠ 0) :
    (spec_f nr eb b).length = 1 + if b = nr ∨ b = eb then 1 else 0 := by
  unfold spec_f
  by_cases hb : b = 0
  · subst hb
    have : ¬ (0 = nr ∨ 0 = eb) := by omega
    simp [this]
  · by_cases hm : b = nr ∨ b = eb <;> simp [hb, hm]

theorem payload_length (nr eb : Nat) (S : List Nat) (hnr : nr ≠ 0) (heb : eb ≠ 0) :
    (payload nr eb S).length = S.length + escapes nr eb S := by
  induction S with
  | nil => simp [payload_nil, escapes]
  | cons b rest ih =>
    rw [payload_cons, List.length_append, escapes_cons, List.length_cons, ih,
      spec_f_length nr eb b hnr heb]
    omega

/-- With room left in the allocation the write loop appends the payload. -/
theorem encode_loop_eq (w reqSize nr eb : Nat) (hlt : reqSize < 2 ^ w) (S : List Nat) :
    ∀ encoded, encoded.length + (payload nr eb S).length < reqSize →
      encode_loop w reqSize nr eb S encoded = Run.returns (encoded ++ payload nr eb S) := by
  induction S with
  | nil => intro encoded _; simp [encode_loop, payload_nil]
  | cons d rest ih =>
    intro encoded hroom
    rw [payload_cons, List.length_append] at hroom
    have hguard : (reqSize + 2 ^ w - 1) % 2 ^ w = reqSize - 1 := by
      have h1 : reqSize + 2 ^ w - 1 = (reqSize - 1) + 2 ^ w := by omega
      rw [h1, Nat.add_mod_right, Nat.mod_eq_of_lt (by omega)]
    have hpos : 0 < (spec_f nr eb d).length := by
      unfold spec_f; split_ifs <;> simp
    rw [encode_loop, hguard, if_pos (by omega), payload_cons]
    by_cases hd : d = 0
    · have hf : spec_f nr eb d = [nr] := by simp [spec_f, hd]
      rw [hf] at hroom ⊢
      simp only [List.length_singleton] at hroom
      rw [if_pos hd]
      simp only [store, if_pos (show encoded.length < reqSize by omega)]
      rw [ih (encoded ++ [nr]) (by simp; omega)]
      simp
    · rw [if_neg hd]
      by_cases hm : d = nr ∨ d = eb
      · have hf : spec_f nr eb d = [eb, d] := by simp [spec_f, hd, hm]
        rw [hf] at hroom ⊢
        simp only [List.length_cons, List.length_nil] at hroom
        rw [if_pos hm]
        simp only [store, if_pos (show encoded.length < reqSize by omega)]
        rw [if_pos (show (encoded ++ [eb]).length < reqSize by simp; omega)]
        simp only []
        rw [ih (encoded ++ [eb] ++ [d]) (by simp; omega)]
        simp
      · have hf : spec_f nr eb d = [d] := by simp [spec_f, hd, hm]
        rw [hf] at hroom ⊢
        simp only [List.length_singleton] at hroom
        rw [if_neg hm]
        simp only [store, if_pos (show encoded.length < reqSize by omega)]
        rw [ih (encoded ++ [d]) (by simp; omega)]
        simp

/-- The encoder with non-zero markers, on an input whose worst-case encoding
fits `size_t`, returns header, payload and terminator and nothing else. -/
theorem encode_with_escapes_eq (w : Nat) (S : List Nat) (nr eb : Nat)
    (hnr : nr ≠ 0) (heb : eb ≠ 0) (hfit : 2 * S.length + 5 < 2 ^ w) :
    base254_encode_with_escapes w S nr eb
      = Run.returns ([98, 254, nr, eb] ++ payload nr eb S ++ [0]) := by
  have hreq := requiredSize_eq w nr eb S hfit
  have hlen := payload_length nr eb S hnr heb
  have hle := escapes_le_length nr eb S
  unfold base254_encode_with_escapes
  simp only []
  have hhead : encode_header (requiredSize w S nr eb) nr eb = Run.returns [98, 254, nr, eb] := by
    simp [encode_header, store, hreq]
  rw [hhead]
  simp only []
  rw [encode_loop_eq w _ nr eb (by omega) S [98, 254, nr, eb] (by simp; omega)]
  simp only [store]
  rw [if_pos (by simp; omega)]
  simp only []
  have : requiredSize w S nr eb - ([98, 254, nr, eb] ++ payload nr eb S ++ [0]).length = 0 := by
    simp; omega
  rw [this]
  simp

/-! ## The decoder on encoded buffers -/

theorem spec_f_ne_zero (nr eb b : Nat) (hnr : nr ≠ 0) (heb : eb ≠ 0) :
    ∀ c ∈ spec_f nr eb b, c ≠ 0 := by
  intro c hc
  unfold spec_f at hc
  split_ifs at hc with h0 hm
  · simp at hc; omega
  · simp at hc; omega
  · simp at hc; omega

theorem payload_ne_zero (nr eb : Nat) (hnr : nr ≠ 0) (heb : eb ≠ 0) (S : List Nat) :
    ∀ c ∈ payload nr eb S, c ≠ 0 := by
  induction S with
  | nil => intro c hc; simp [payload_nil] at hc
  | cons b rest ih =>
    intro c hc
    rw [payload_cons, List.mem_append] at hc
    rcases hc with hc | hc
    · exact spec_f_ne_zero nr eb b hnr heb c hc
    · exact ih c hc

/-- On bytes without a zero followed by a zero, `strlen` is the number of those bytes. -/
theorem strlen_append_zero (p rest : List Nat) (hp : ∀ c ∈ p, c ≠ 0) :
    strlen (p ++ 0 :: rest) = Run.returns p.length := by
  induction p with
  | nil => simp [strlen]
  | cons c t ih =>
    have hc : c ≠ 0 := hp c (List.mem_cons_self c t)
    have ht : ∀ x ∈ t, x ≠ 0 := fun x hx => hp x (List.mem_cons_of_mem c hx)
    rw [List.cons_append, strlen, if_neg hc, ih ht]
    simp

/-- The body scan without a limit undoes the payload transformation, when the
markers differ or the null replacement does not occur in the input. -/
theorem decode_loop_payload (nr eb cap : Nat) (hnr : nr ≠ 0) (heb : eb ≠ 0) (tail : List Nat)
    (S : List Nat) :
    (nr ≠ eb ∨ nr ∉ S) → ∀ i out, out.length + S.length ≤ cap →
      decode_loop nr eb 0 cap (payload nr eb S ++ 0 :: tail) i false out
        = Run.returns (out ++ S) := by
  induction S with
  | nil =>
    intro _ i out _
    simp [payload_nil, decode_loop]
  | cons b rest ih =>
    intro hcond i out hcap
    simp only [List.length_cons] at hcap
    have hcond2 : nr ≠ eb ∨ nr ∉ rest := by
      rcases hcond with h | h
      · exact Or.inl h
      · exact Or.inr (fun hm => h (List.mem_cons_of_mem b hm))
    have hst : ∀ v, store cap out v = Run.returns (out ++ [v]) := by
      intro v
      simp only [store, if_pos (show out.length < cap by omega)]
    rw [payload_cons, List.append_assoc]
    by_cases hb : b = 0
    · have hf : spec_f nr eb b = [nr] := by simp [spec_f, hb]
      have hne : ¬ (nr = eb ∧ eb ≠ nr) := by
        intro h; exact h.2 h.1.symm
      rw [hf, List.singleton_append, decode_loop]
      simp only [Nat.lt_irrefl, or_true, true_and, ne_eq, hnr, not_false_eq_true, if_true,
        Bool.false_eq_true, if_false, hne]
      rw [hst 0]
      simp only []
      rw [ih hcond2 (i + 1) (out ++ [0]) (by simp; omega), hb]
      simp
    · by_cases hm : b = nr ∨ b = eb
      · have hf : spec_f nr eb b = [eb, b] := by simp [spec_f, hb, hm]
        have hdiff : eb ≠ nr := by
          rcases hcond with h | h
          · exact fun e => h e.symm
          · intro e
            apply h
            rcases hm with h1 | h1
            · rw [← h1]; exact List.mem_cons_self b rest
            · rw [← e, ← h1]; exact List.mem_cons_self b rest
        rw [hf, List.cons_append, List.singleton_append, decode_loop]
        simp only [or_true, true_and, ne_eq, heb, not_false_eq_true, if_true,
          Bool.false_eq_true, if_false, hdiff, and_self]
        rw [decode_loop]
        simp only [or_true, true_and, ne_eq, hb, not_false_eq_true, if_true]
        rw [hst b]
        simp only []
        rw [ih hcond2 (i + 1 + 1) (out ++ [b]) (by simp; omega)]
        simp
      · have hf : spec_f nr eb b = [b] := by simp [spec_f, hb, hm]
        have h1 : b ≠ nr := fun e => hm (Or.inl e)
        have h2 : b ≠ eb := fun e => hm (Or.inr e)
        rw [hf, List.singleton_append, decode_loop]
        simp only [or_true, true_and, ne_eq, hb, not_false_eq_true, if_true,
          Bool.false_eq_true, if_false, h1, h2, false_and]
        rw [hst b]
        simp only []
        rw [ih hcond2 (i + 1) (out ++ [b]) (by simp; omega)]
        simp

/-- Decoding header, payload and terminator gives back the input, when the
markers differ or the null replacement does not occur in the input. -/
theorem decode_spec_encode (w : Nat) (S : List Nat) (nr eb : Nat)
    (hnr : nr ≠ 0) (heb : eb ≠ 0) (hfit : 2 * S.length + 5 < 2 ^ w)
    (hcond : nr ≠ eb ∨ nr ∉ S) :
    base254_decode w ([98, 254, nr, eb] ++ payload nr eb S ++ [0])
      = Run.returns (some ⟨S, S.length⟩) := by
  have hlen := payload_length nr eb S hnr heb
  have hle := escapes_le_length nr eb S
  have hz : ∀ c ∈ [98, 254, nr, eb] ++ payload nr eb S, c ≠ 0 := by
    intro c hc
    rw [List.mem_append] at hc
    rcases hc with hc | hc
    · simp at hc
      omega
    · exact payload_ne_zero nr eb hnr heb S c hc
  have hstr := strlen_append_zero ([98, 254, nr, eb] ++ payload nr eb S) [] hz
  have hdl : dataLen w ([98, 254, nr, eb] ++ payload nr eb S ++ [0]) 0
      = Run.returns (payload nr eb S).length := by
    unfold dataLen
    rw [if_pos rfl, hstr]
    simp only [List.length_append, List.length_cons, List.length_nil]
    have h1 : 0 + 1 + 1 + 1 + 1 + (payload nr eb S).length + 2 ^ w - 4
        = (payload nr eb S).length + 2 ^ w := by omega
    rw [h1, Nat.add_mod_right, Nat.mod_eq_of_lt (by omega)]
  have hloop := decode_loop_payload nr eb (payload nr eb S).length hnr heb [] S hcond 4 []
    (by simp; omega)
  unfold base254_decode base254_decode_n
  rw [if_neg (by omega)]
  simp only [List.cons_append, List.nil_append, ne_eq, not_true_eq_false, if_false]
  simp only [List.cons_append, List.nil_append, List.append_assoc] at hdl
  rw [hdl]
  simp only []
  rw [if_neg (by omega), hloop]
  simp

/-! ## The frequency analysis -/

theorem getD_set (l : List Nat) (i j a : Nat) :
    (l.set i a).getD j 0 = if i = j ∧ i < l.length then a else l.getD j 0 := by
  rw [List.getD_eq_getElem?_getD, List.getD_eq_getElem?_getD, List.getElem?_set]
  by_cases hij : i = j
  · by_cases hl : i < l.length
    · subst hij
      simp [hl]
    · subst hij
      have : l[i]? = none := List.getElem?_eq_none (by omega)
      simp [hl, this]
  · simp [hij]

/-- The histogram loop adds to every counter the occurrences of its index,
when no counter can wrap around. -/
theorem usage_fold_getD (w : Nat) (data : List Nat) :
    ∀ uc : List Nat, uc.length = 256 → (∀ j, uc.getD j 0 + data.length < 2 ^ w) →
      ∀ i, i < 256 →
        (data.foldl (fun uc d => uc.set d ((uc.getD d 0 + 1) % 2 ^ w)) uc).getD i 0
          = uc.getD i 0 + data.count i := by
  induction data with
  | nil => intro uc _ _ i _; simp
  | cons d rest ih =>
    intro uc hlen hb i hi
    have hmod : (uc.getD d 0 + 1) % 2 ^ w = uc.getD d 0 + 1 := by
      have := hb d
      simp only [List.length_cons] at this
      exact Nat.mod_eq_of_lt (by omega)
    rw [List.foldl_cons, hmod]
    have hb2 : ∀ j, (uc.set d (uc.getD d 0 + 1)).getD j 0 + rest.length < 2 ^ w := by
      intro j
      have := hb j
      simp only [List.length_cons] at this
      rw [getD_set]
      split_ifs with h
      · rw [h.1]; omega
      · omega
    rw [ih (uc.set d (uc.getD d 0 + 1)) (by simp [hlen]) hb2 i hi, getD_set, List.count_cons]
    by_cases hdi : d = i
    · subst hdi
      simp [hlen, hi]
      omega
    · have : ¬ (d = i ∧ d < uc.length) := fun h => hdi h.1
      simp [hdi, this]

theorem getD_replicate_zero (n j : Nat) : (List.replicate n 0).getD j 0 = 0 := by
  rw [List.getD_eq_getElem?_getD]
  by_cases h : j < n
  · simp [List.getElem?_replicate, h]
  · simp [List.getElem?_replicate, h]

/-- Counter `i` of the histogram is the number of occurrences of `i` in the input. -/
theorem usage_count_getD (w : Nat) (S : List Nat) (hlen : S.length < 2 ^ w) (i : Nat)
    (hi : i < 256) : (usage_count w S).getD i 0 = S.count i := by
  unfold usage_count
  rw [usage_fold_getD w S (List.replicate 256 0) (List.length_replicate 256 0)
    (by intro j; rw [getD_replicate_zero]; omega) i hi, getD_replicate_zero]
  omega

theorem count_add_count_le (S : List Nat) (a b : Nat) (hab : a ≠ b) :
    S.count a + S.count b ≤ S.length := by
  induction S with
  | nil => simp
  | cons d rest ih =>
    rw [List.count_cons, List.count_cons, List.length_cons]
    simp only [beq_iff_eq]
    by_cases h1 : d = a
    · have h2 : d ≠ b := fun e => hab (h1.symm.trans e)
      rw [if_pos h1, if_neg h2]
      omega
    · by_cases h2 : d = b
      · rw [if_neg h1, if_pos h2]
        omega
      · rw [if_neg h1, if_neg h2]
        omega

/-- One more candidate keeps the invariant of a marker scan. -/
theorem scanInv_step (uc : List Nat) (excl m0 x0 n : Nat) (hn : n < 255) (st : Nat × Nat)
    (h : ScanInv (fun i => uc.getD i 0) excl m0 x0 n st) :
    ScanInv (fun i => uc.getD i 0) excl m0 x0 (n + 1) (second_step uc excl st (n + 1)) := by
  simp only [ScanInv] at h ⊢
  unfold second_step
  by_cases he : n + 1 = excl
  · rw [if_pos he]
    rcases h with ⟨hst, hall⟩ | ⟨h1, h2, h3, h4, h5, hall⟩
    · refine Or.inl ⟨hst, ?_⟩
      intro y hy1 hy2 hy3
      exact hall y hy1 (by omega) hy3
    · refine Or.inr ⟨h1, by omega, h3, h4, h5, ?_⟩
      intro y hy1 hy2 hy3
      exact hall y hy1 (by omega) hy3
  · rw [if_neg he]
    by_cases hlt : uc.getD (n + 1) 0 < st.1
    · rw [if_pos hlt]
      have hmod : (n + 1) % 256 = n + 1 := Nat.mod_eq_of_lt (by omega)
      rw [hmod]
      have hm0 : st.1 ≤ m0 := by
        rcases h with ⟨hst, _⟩ | ⟨_, _, _, _, h5, _⟩
        · rw [hst]
        · omega
      refine Or.inr ⟨by simp, by simp, he, rfl, by simp only; omega, ?_⟩
      intro y hy1 hy2 hy3
      simp only
      by_cases hy : y = n + 1
      · subst hy
        exact ⟨le_refl _, fun hh => absurd hh (lt_irrefl _)⟩
      · have hst : st.1 ≤ uc.getD y 0 := by
          rcases h with ⟨hst, hall⟩ | ⟨_, _, _, _, _, hall⟩
          · rw [hst]; exact hall y hy1 (by omega) hy3
          · exact (hall y hy1 (by omega) hy3).1
        exact ⟨by omega, fun _ => by omega⟩
    · rw [if_neg hlt]
      rcases h with ⟨hst, hall⟩ | ⟨h1, h2, h3, h4, h5, hall⟩
      · refine Or.inl ⟨hst, ?_⟩
        intro y hy1 hy2 hy3
        by_cases hy : y = n + 1
        · subst hy
          rw [hst] at hlt
          simp only at hlt
          omega
        · exact hall y hy1 (by omega) hy3
      · refine Or.inr ⟨h1, by omega, h3, h4, h5, ?_⟩
        intro y hy1 hy2 hy3
        by_cases hy : y = n + 1
        · subst hy
          exact ⟨by omega, fun hh => by omega⟩
        · exact hall y hy1 (by omega) hy3

/-- The invariant holds after any number of candidates. -/
theorem scanInv_fold (uc : List Nat) (excl m0 x0 : Nat) :
    ∀ n, n ≤ 255 →
      ScanInv (fun i => uc.getD i 0) excl m0 x0 n
        ((List.range' 1 n).foldl (second_step uc excl) (m0, x0)) := by
  intro n
  induction n with
  | zero =>
    intro _
    refine Or.inl ⟨rfl, ?_⟩
    intro y hy1 hy2
    omega
  | succ k ih =>
    intro hk
    rw [List.range'_concat, List.foldl_append]
    simp only [List.foldl_cons, List.foldl_nil, Nat.one_mul]
    rw [Nat.add_comm 1 k]
    exact scanInv_step uc excl m0 x0 k (by omega) _ (ih (by omega))

/-- The first scan is the second scan with nothing skipped. -/
theorem min_scan_eq (w : Nat) (uc : List Nat) : min_scan w uc = second_scan w uc 0 := by
  unfold min_scan second_scan
  apply List.foldl_ext
  intro st i hi
  rw [List.mem_range'_1] at hi
  unfold min_step second_step
  rw [if_neg (show ¬ i = 0 by omega)]

theorem size_max_eq (w : Nat) : SIZE_MAX w = 2 ^ w - 1 := rfl

/-- Result of the first scan: the least used value of `1 .. 255`, the smallest
such value, and its count. -/
theorem min_scan_spec (w : Nat) (S : List Nat) (hlen : S.length < 2 ^ w) :
    1 ≤ minUsedChar w S ∧ minUsedChar w S ≤ 255 ∧
      minUse w S = S.count (minUsedChar w S) ∧
      ∀ y, 1 ≤ y → y ≤ 255 →
        (S.count (minUsedChar w S) ≤ S.count y ∧
          (y < minUsedChar w S → S.count (minUsedChar w S) < S.count y)) := by
  have inv := scanInv_fold (usage_count w S) 0 (SIZE_MAX w) 1 255 (le_refl _)
  have hscan : (List.range' 1 255).foldl (second_step (usage_count w S) 0) (SIZE_MAX w, 1)
      = min_scan w (usage_count w S) := by
    rw [min_scan_eq]; rfl
  rw [hscan] at inv
  simp only [ScanInv] at inv
  have hm : minUse w S = (min_scan w (usage_count w S)).1 := rfl
  have hv : minUsedChar w S = (min_scan w (usage_count w S)).2 := rfl
  rw [hm, hv]
  generalize min_scan w (usage_count w S) = st at inv ⊢
  have hc : ∀ y, y ≤ 255 → (usage_count w S).getD y 0 = S.count y :=
    fun y hy => usage_count_getD w S hlen y (by omega)
  rcases inv with ⟨hst, hall⟩ | ⟨h1, h2, _, h4, _, hall⟩
  · subst hst
    have hge : ∀ y, 1 ≤ y → y ≤ 255 → S.count y = SIZE_MAX w := by
      intro y hy1 hy2
      have h1 := hall y hy1 hy2 (by omega)
      rw [hc y hy2] at h1
      have h2 := List.count_le_length y S
      rw [size_max_eq] at h1 ⊢
      omega
    refine ⟨le_refl _, by simp, ?_, ?_⟩
    · simp only
      rw [hge 1 (le_refl _) (by omega)]
    · intro y hy1 hy2
      simp only
      rw [hge 1 (le_refl _) (by omega), hge y hy1 hy2]
      exact ⟨le_refl _, fun h => by omega⟩
  · rw [hc _ h2] at h4
    refine ⟨h1, h2, h4, ?_⟩
    intro y hy1 hy2
    have := hall y hy1 hy2 (by omega)
    rw [hc y hy2, h4] at this
    exact this

/-- Result of the second scan when the least used value occurs in the input:
the least used value of `1 .. 255` other than `minUsedChar`, the smallest such. -/
theorem second_scan_spec (w : Nat) (S : List Nat) (hlen : S.length < 2 ^ w)
    (hpos : minUse w S ≠ 0) :
    1 ≤ secondMinUsedChar w S ∧ secondMinUsedChar w S ≤ 255 ∧
      secondMinUsedChar w S ≠ minUsedChar w S ∧
      ∀ y, 1 ≤ y → y ≤ 255 → y ≠ minUsedChar w S →
        (S.count (secondMinUsedChar w S) ≤ S.count y ∧
          (y < secondMinUsedChar w S → S.count (secondMinUsedChar w S) < S.count y)) := by
  obtain ⟨hv1, hv2, hvm, _⟩ := min_scan_spec w S hlen
  have inv := scanInv_fold (usage_count w S) (minUsedChar w S) (SIZE_MAX w) 1 255 (le_refl _)
  have hscan : (List.range' 1 255).foldl (second_step (usage_count w S) (minUsedChar w S))
      (SIZE_MAX w, 1) = second_scan w (usage_count w S) (minUsedChar w S) := rfl
  rw [hscan] at inv
  simp only [ScanInv] at inv
  have he : secondMinUsedChar w S = (second_scan w (usage_count w S) (minUsedChar w S)).2 := rfl
  rw [he]
  generalize second_scan w (usage_count w S) (minUsedChar w S) = st at inv ⊢
  have hc : ∀ y, y ≤ 255 → (usage_count w S).getD y 0 = S.count y :=
    fun y hy => usage_count_getD w S hlen y (by omega)
  rcases inv with ⟨_, hall⟩ | ⟨h1, h2, h3, h4, _, hall⟩
  · exfalso
    rw [hvm] at hpos
    by_cases hone : minUsedChar w S = 1
    · have h1 := hall 2 (by omega) (by omega) (by omega)
      rw [hc 2 (by omega), size_max_eq] at h1
      have h2 := count_add_count_le S 2 (minUsedChar w S) (by omega)
      omega
    · have h1 := hall 1 (by omega) (by omega) (fun e => hone e.symm)
      rw [hc 1 (by omega), size_max_eq] at h1
      have h2 := count_add_count_le S 1 (minUsedChar w S) (fun e => hone e.symm)
      omega
  · rw [hc _ h2] at h4
    refine ⟨h1, h2, h3, ?_⟩
    intro y hy1 hy2 hy3
    have := hall y hy1 hy2 hy3
    rw [hc y hy2, h4] at this
    exact this

/-- The selected markers are non-zero bytes, and they are equal only when the
null replacement does not occur in the input. -/
theorem markers_spec (w : Nat) (S : List Nat) (hlen : S.length < 2 ^ w) :
    1 ≤ (markers w S).1 ∧ (markers w S).1 ≤ 255 ∧
      1 ≤ (markers w S).2 ∧ (markers w S).2 ≤ 255 ∧
      ((markers w S).1 ≠ (markers w S).2 ∨ (markers w S).1 ∉ S) := by
  obtain ⟨hv1, hv2, hvm, _⟩ := min_scan_spec w S hlen
  unfold markers
  by_cases h0 : minUse w S = 0
  · rw [if_pos h0]
    dsimp only
    rw [h0] at hvm
    exact ⟨hv1, hv2, hv1, hv2, Or.inr (List.count_eq_zero.mp hvm.symm)⟩
  · rw [if_neg h0]
    dsimp only
    obtain ⟨he1, he2, he3, _⟩ := second_scan_spec w S hlen h0
    exact ⟨hv1, hv2, he1, he2, Or.inl (fun e => he3 e.symm)⟩

theorem markers_fst (w : Nat) (S : List Nat) : (markers w S).1 = minUsedChar w S := by
  unfold markers
  by_cases h : minUse w S = 0
  · simp only [if_pos h]
  · simp only [if_neg h]

/-- Header, payload and terminator hold a single zero byte, the last one. -/
theorem encoded_single_zero (nr eb : Nat) (hnr : nr ≠ 0) (heb : eb ≠ 0) (S : List Nat) :
    ([98, 254, nr, eb] ++ payload nr eb S ++ [0]).count 0 = 1 ∧
      ([98, 254, nr, eb] ++ payload nr eb S ++ [0]).getLast? = some 0 := by
  constructor
  · have hp : (payload nr eb S).count 0 = 0 :=
      List.count_eq_zero.mpr (fun h => payload_ne_zero nr eb hnr heb S 0 h rfl)
    have hh : ([98, 254, nr, eb] : List Nat).count 0 = 0 := by
      apply List.count_eq_zero.mpr
      simp
      omega
    rw [List.count_append, List.count_append, hp, hh]
    simp
  · rw [List.getLast?_append]
    simp

/-! ## The decoder on arbitrary buffers -/

theorem spec_scan_length_le (nr eb : Nat) (p : List Nat) :
    ∀ esc, (spec_scan nr eb esc p).2.length ≤ p.length := by
  induction p with
  | nil => intro esc; simp [spec_scan]
  | cons c rest ih =>
    intro esc
    cases esc with
    | true =>
      simp only [spec_scan, List.length_cons]
      have := ih false
      omega
    | false =>
      simp only [spec_scan]
      have h1 := ih false
      have h2 := ih true
      split_ifs <;> simp only [List.length_cons] <;> omega

/-- The body scan stops at a zero byte. -/
theorem decode_loop_zero (nr eb n cap : Nat) (t : List Nat) (i : Nat) (esc : Bool)
    (out : List Nat) : decode_loop nr eb n cap (0 :: t) i esc out = Run.returns out := by
  rw [decode_loop]
  simp

/-- The body scan stops when the limit is reached. -/
theorem decode_loop_limit (nr eb n cap : Nat) (tail : List Nat) (i : Nat) (esc : Bool)
    (out : List Nat) (hn : n ≠ 0) (hi : n ≤ i) :
    decode_loop nr eb n cap tail i esc out = Run.returns out := by
  have hg : ¬ (i < n ∨ n = 0) := by omega
  cases tail with
  | nil => rw [decode_loop, if_neg hg]
  | cons c rest => rw [decode_loop, if_neg (fun h => hg h.1)]

/-- On non-zero bytes inside the limit and the allocation the body scan
follows the two-state automaton of the specification. -/
theorem decode_loop_scan (nr eb n cap : Nat) (tail : List Nat) (p : List Nat) :
    (∀ c ∈ p, c ≠ 0) → ∀ i esc out, (n = 0 ∨ i + p.length ≤ n) →
      out.length + p.length ≤ cap →
      decode_loop nr eb n cap (p ++ tail) i esc out
        = decode_loop nr eb n cap tail (i + p.length) (spec_scan nr eb esc p).1
            (out ++ (spec_scan nr eb esc p).2) := by
  induction p with
  | nil => intro _ i esc out _ _; simp [spec_scan]
  | cons c rest ih =>
    intro hp i esc out hlim hcap
    simp only [List.length_cons] at hlim hcap
    have hc : c ≠ 0 := hp c (List.mem_cons_self c rest)
    have hrest : ∀ x ∈ rest, x ≠ 0 := fun x hx => hp x (List.mem_cons_of_mem c hx)
    have hg : (i < n ∨ n = 0) ∧ c ≠ 0 := ⟨by omega, hc⟩
    have hst : ∀ v, store cap out v = Run.returns (out ++ [v]) := by
      intro v
      simp only [store, if_pos (show out.length < cap by omega)]
    have hidx : i + 1 + rest.length = i + (rest.length + 1) := by omega
    rw [List.cons_append, decode_loop, if_pos hg]
    cases esc with
    | true =>
      simp only [if_true, hst c]
      rw [ih hrest (i + 1) false (out ++ [c]) (by omega) (by simp; omega)]
      simp only [spec_scan, List.length_cons, hidx, List.append_assoc, List.singleton_append]
    | false =>
      simp only [Bool.false_eq_true, if_false]
      by_cases he : c = eb ∧ eb ≠ nr
      · rw [if_pos he, ih hrest (i + 1) true out (by omega) (by omega)]
        simp only [spec_scan, if_pos he, List.length_cons, hidx]
      · rw [if_neg he]
        by_cases hn : c = nr
        · rw [if_pos hn]
          simp only [hst 0]
          rw [ih hrest (i + 1) false (out ++ [0]) (by omega) (by simp; omega)]
          simp only [spec_scan, if_neg he, if_pos hn, List.length_cons, hidx,
            List.append_assoc, List.singleton_append]
        · rw [if_neg hn]
          simp only [hst c]
          rw [ih hrest (i + 1) false (out ++ [c]) (by omega) (by simp; omega)]
          simp only [spec_scan, if_neg he, if_neg hn, List.length_cons, hidx,
            List.append_assoc, List.singleton_append]

/-- Bounded length of non-zero bytes that reach the limit or are followed by a
zero byte inside the limit. -/
theorem strnlen_prefix (q : List Nat) :
    (∀ c ∈ q, c ≠ 0) → ∀ n tail,
      (n = q.length ∨ (q.length < n ∧ ∃ t, tail = 0 :: t)) →
      strnlen (q ++ tail) n = Run.returns q.length := by
  induction q with
  | nil =>
    intro _ n tail h
    rcases h with h | ⟨h, t, ht⟩
    · subst h; simp [strnlen]
    · subst ht
      obtain ⟨m, rfl⟩ : ∃ m, n = m + 1 := ⟨n - 1, by simp at h; omega⟩
      simp [strnlen]
  | cons c rest ih =>
    intro hq n tail h
    have hc : c ≠ 0 := hq c (List.mem_cons_self c rest)
    have hrest : ∀ x ∈ rest, x ≠ 0 := fun x hx => hq x (List.mem_cons_of_mem c hx)
    simp only [List.length_cons] at h
    obtain ⟨m, rfl⟩ : ∃ m, n = m + 1 := ⟨n - 1, by omega⟩
    have h2 : m = rest.length ∨ (rest.length < m ∧ ∃ t, tail = 0 :: t) := by
      rcases h with h | ⟨h, ht⟩
      · exact Or.inl (by omega)
      · exact Or.inr ⟨by omega, ht⟩
    rw [List.cons_append, strnlen, if_neg hc, ih hrest m tail h2]
    simp

/-- Where the length scan of the decoder stops on a buffer with a header. -/
theorem header_strlen (nr eb : Nat) (p t : List Nat) (hp : ∀ c ∈ p, c ≠ 0) :
    strlen (98 :: 254 :: nr :: eb :: (p ++ 0 :: t))
      = Run.returns (first_zero nr eb p.length) := by
  unfold first_zero
  by_cases h1 : nr = 0
  · simp [strlen, h1]
  · by_cases h2 : eb = 0
    · simp [strlen, h1, h2]
    · rw [if_neg h1, if_neg h2]
      have hz : ∀ c ∈ [98, 254, nr, eb] ++ p, c ≠ 0 := by
        intro c hc
        rw [List.mem_append] at hc
        rcases hc with hc | hc
        · simp at hc; omega
        · exact hp c hc
      have := strlen_append_zero ([98, 254, nr, eb] ++ p) t hz
      simp only [List.cons_append, List.nil_append, List.length_cons, List.length_append,
        List.length_nil] at this
      rw [this]
      congr 1
      omega

/-- Where the bounded length scan of the decoder stops on a buffer with a header. -/
theorem header_strnlen (nr eb : Nat) (p tail : List Nat) (n : Nat) (hp : ∀ c ∈ p, c ≠ 0)
    (hstop : n = 4 + p.length ∨ (4 + p.length < n ∧ ∃ t, tail = 0 :: t)) :
    strnlen (98 :: 254 :: nr :: eb :: (p ++ tail)) n
      = Run.returns (first_zero nr eb p.length) := by
  unfold first_zero
  obtain ⟨m, rfl⟩ : ∃ m, n = m + 1 + 1 + 1 + 1 := ⟨n - 4, by omega⟩
  by_cases h1 : nr = 0
  · simp [strnlen, h1]
  · by_cases h2 : eb = 0
    · simp [strnlen, h1, h2]
    · rw [if_neg h1, if_neg h2]
      have hz : ∀ c ∈ [98, 254, nr, eb] ++ p, c ≠ 0 := by
        intro c hc
        rw [List.mem_append] at hc
        rcases hc with hc | hc
        · simp at hc; omega
        · exact hp c hc
      have := strnlen_prefix ([98, 254, nr, eb] ++ p) hz (m + 1 + 1 + 1 + 1) tail (by
        simp only [List.length_append, List.length_cons, List.length_nil]
        rcases hstop with h | ⟨h, ht⟩
        · exact Or.inl (by omega)
        · exact Or.inr ⟨by omega, ht⟩)
      simp only [List.cons_append, List.nil_append, List.length_cons, List.length_append,
        List.length_nil] at this
      rw [this]
      congr 1
      omega

/-- The allocation of the decoder has room for one byte per payload byte. -/
theorem first_zero_room (w nr eb plen : Nat) (hfit : 4 + plen < 2 ^ w) :
    plen ≤ (first_zero nr eb plen + 2 ^ w - 4) % 2 ^ w := by
  unfold first_zero
  split_ifs
  · rw [Nat.mod_eq_of_lt (by omega)]; omega
  · rw [Nat.mod_eq_of_lt (by omega)]; omega
  · have h : 4 + plen + 2 ^ w - 4 = plen + 2 ^ w := by omega
    rw [h, Nat.add_mod_right, Nat.mod_eq_of_lt (by omega)]

/-- On a buffer with a header of non-zero markers whose scan stops after the
non-zero bytes `p`, the decoder returns the bytes the automaton emits on `p`,
whatever the final state. -/
theorem decode_n_scan (w nr eb : Nat) (p tail : List Nat) (n : Nat)
    (hnr : nr ≠ 0) (heb : eb ≠ 0) (hp : ∀ c ∈ p, c ≠ 0)
    (hstop : (n = 0 ∧ ∃ t, tail = 0 :: t) ∨ (4 + p.length < n ∧ ∃ t, tail = 0 :: t) ∨
      n = 4 + p.length)
    (hfit : 4 + p.length < 2 ^ w) :
    base254_decode_n w (98 :: 254 :: nr :: eb :: (p ++ tail)) n
      = Run.returns (some ⟨(spec_scan nr eb false p).2,
          (spec_scan nr eb false p).2.length⟩) := by
  have hroom := first_zero_room w nr eb p.length hfit
  have hcap : (first_zero nr eb p.length + 2 ^ w - 4) % 2 ^ w = p.length := by
    unfold first_zero
    rw [if_neg hnr, if_neg heb]
    have h : 4 + p.length + 2 ^ w - 4 = p.length + 2 ^ w := by omega
    rw [h, Nat.add_mod_right, Nat.mod_eq_of_lt (by omega)]
  have hdl : dataLen w (98 :: 254 :: nr :: eb :: (p ++ tail)) n
      = Run.returns ((first_zero nr eb p.length + 2 ^ w - 4) % 2 ^ w) := by
    unfold dataLen
    rcases hstop with ⟨h0, t, ht⟩ | ⟨h1, t, ht⟩ | h2
    · subst ht
      rw [if_pos h0, header_strlen nr eb p t hp]
    · rw [if_neg (by omega), header_strnlen nr eb p tail n hp (Or.inr ⟨h1, t, ht⟩)]
    · rw [if_neg (by omega), header_strnlen nr eb p tail n hp (Or.inl h2)]
  have hloop : decode_loop nr eb n ((first_zero nr eb p.length + 2 ^ w - 4) % 2 ^ w)
      (p ++ tail) 4 false [] = Run.returns (spec_scan nr eb false p).2 := by
    rw [decode_loop_scan nr eb n _ tail p hp 4 false [] (by omega) (by simpa using hroom)]
    rcases hstop with ⟨_, t, ht⟩ | ⟨_, t, ht⟩ | h2
    · subst ht; rw [decode_loop_zero]; simp
    · subst ht; rw [decode_loop_zero]; simp
    · rw [decode_loop_limit nr eb n _ tail _ _ _ (by omega) (by omega)]; simp
  unfold base254_decode_n
  rw [if_neg (by omega)]
  simp only [ne_eq, not_true_eq_false, if_false]
  rw [hdl]
  simp only []
  rw [if_neg (by rw [hcap]; omega), hloop]

/-- On a buffer with a header in which a marker is zero, the first zero byte
is at offset 2 or 3, `strlen(data)-4` wraps around and the decoder is aborted
by `safe_malloc`. -/
theorem decode_n_zero_marker (w nr eb : Nat) (p tail : List Nat) (n : Nat)
    (hz : nr = 0 ∨ eb = 0) (hp : ∀ c ∈ p, c ≠ 0)
    (hstop : (n = 0 ∧ ∃ t, tail = 0 :: t) ∨ (4 + p.length < n ∧ ∃ t, tail = 0 :: t) ∨
      n = 4 + p.length)
    (hfit : 4 + p.length < 2 ^ w) :
    base254_decode_n w (98 :: 254 :: nr :: eb :: (p ++ tail)) n = Run.aborted := by
  have hdl : dataLen w (98 :: 254 :: nr :: eb :: (p ++ tail)) n
      = Run.returns ((first_zero nr eb p.length + 2 ^ w - 4) % 2 ^ w) := by
    unfold dataLen
    rcases hstop with ⟨h0, t, ht⟩ | ⟨h1, t, ht⟩ | h2
    · subst ht
      rw [if_pos h0, header_strlen nr eb p t hp]
    · rw [if_neg (by omega), header_strnlen nr eb p tail n hp (Or.inr ⟨h1, t, ht⟩)]
    · rw [if_neg (by omega), header_strnlen nr eb p tail n hp (Or.inl h2)]
  have hbig : 2 ^ w ≤ (first_zero nr eb p.length + 2 ^ w - 4) % 2 ^ w + 4 := by
    unfold first_zero
    by_cases h1 : nr = 0
    · rw [if_pos h1, Nat.mod_eq_of_lt (by omega)]; omega
    · have h2 : eb = 0 := hz.resolve_left h1
      rw [if_neg h1, if_pos h2, Nat.mod_eq_of_lt (by omega)]; omega
  unfold base254_decode_n
  rw [if_neg (by omega)]
  simp only [ne_eq, not_true_eq_false, if_false]
  rw [hdl]
  simp only []
  rw [if_pos hbig]

/-- A scan that ends in state `Escaped` has just read an escape byte in state
`Normal`: without that last byte it ends in `Normal` with the same output. -/
theorem spec_scan_escaped (nr eb : Nat) (p : List Nat) :
    ∀ esc, (spec_scan nr eb esc p).1 = true →
      (esc = true ∧ p = []) ∨
      ∃ p0, p = p0 ++ [eb] ∧ eb ≠ nr ∧ (spec_scan nr eb esc p0).1 = false ∧
        (spec_scan nr eb esc p0).2 = (spec_scan nr eb esc p).2 := by
  induction p with
  | nil =>
    intro esc h
    simp only [spec_scan] at h
    exact Or.inl ⟨h, rfl⟩
  | cons c rest ih =>
    intro esc h
    right
    have emit : (spec_scan nr eb false rest).1 = true →
        ∃ q, rest = q ++ [eb] ∧ eb ≠ nr ∧ (spec_scan nr eb false q).1 = false ∧
          (spec_scan nr eb false q).2 = (spec_scan nr eb false rest).2 := by
      intro hfin
      rcases ih false hfin with ⟨h1, _⟩ | hq
      · exact absurd h1 (by decide)
      · exact hq
    cases esc with
    | true =>
      simp only [spec_scan] at h
      obtain ⟨q, hq, hne, hs, ho⟩ := emit h
      refine ⟨c :: q, by rw [hq]; rfl, hne, ?_, ?_⟩
      · simp only [spec_scan]; exact hs
      · simp only [spec_scan]; rw [ho]
    | false =>
      by_cases he : c = eb ∧ eb ≠ nr
      · simp only [spec_scan, if_pos he] at h
        rcases ih true h with ⟨_, hnil⟩ | ⟨q, hq, hne, hs, ho⟩
        · subst hnil
          refine ⟨[], by rw [he.1]; rfl, he.2, ?_, ?_⟩
          · simp [spec_scan]
          · simp [spec_scan, he]
        · refine ⟨c :: q, by rw [hq]; rfl, hne, ?_, ?_⟩
          · simp only [spec_scan, if_pos he]; exact hs
          · simp only [spec_scan, if_pos he]; exact ho
      · by_cases hn : c = nr
        · simp only [spec_scan, if_neg he, if_pos hn] at h
          obtain ⟨q, hq, hne, hs, ho⟩ := emit h
          refine ⟨c :: q, by rw [hq]; rfl, hne, ?_, ?_⟩
          · simp only [spec_scan, if_neg he, if_pos hn]; exact hs
          · simp only [spec_scan, if_neg he, if_pos hn]; rw [ho]
        · simp only [spec_scan, if_neg he, if_neg hn] at h
          obtain ⟨q, hq, hne, hs, ho⟩ := emit h
          refine ⟨c :: q, by rw [hq]; rfl, hne, ?_, ?_⟩
          · simp only [spec_scan, if_neg he, if_neg hn]; exact hs
          · simp only [spec_scan, if_neg he, if_neg hn]; rw [ho]

/-! ## Sentinel headers and output size of the decoder -/

/-- With equal markers the automaton stays in state `Normal` and emits one
byte per payload byte. -/
theorem spec_scan_sentinel (v : Nat) (p : List Nat) :
    spec_scan v v false p = (false, sentinel_decode v p) := by
  induction p with
  | nil => rfl
  | cons c rest ih =>
    have hne : ¬ (c = v ∧ v ≠ v) := fun h => h.2 rfl
    simp only [spec_scan, if_neg hne, ih, sentinel_decode, List.map_cons]
    split_ifs <;> rfl

theorem sentinel_decode_length (v : Nat) (p : List Nat) :
    (sentinel_decode v p).length = p.length := by
  simp [sentinel_decode]

/-- The allocation size the decoder computes on a buffer with non-zero
markers: the number of payload bytes up to the first zero byte or the limit. -/
theorem dataLen_header (w nr eb : Nat) (p tail : List Nat) (n : Nat)
    (hnr : nr ≠ 0) (heb : eb ≠ 0) (hp : ∀ c ∈ p, c ≠ 0)
    (hstop : (n = 0 ∧ ∃ t, tail = 0 :: t) ∨ (4 + p.length < n ∧ ∃ t, tail = 0 :: t) ∨
      n = 4 + p.length)
    (hfit : 4 + p.length < 2 ^ w) :
    dataLen w (98 :: 254 :: nr :: eb :: (p ++ tail)) n = Run.returns p.length := by
  have hfz : first_zero nr eb p.length = 4 + p.length := by
    unfold first_zero
    rw [if_neg hnr, if_neg heb]
  have hmod : (4 + p.length + 2 ^ w - 4) % 2 ^ w = p.length := by
    have h : 4 + p.length + 2 ^ w - 4 = p.length + 2 ^ w := by omega
    rw [h, Nat.add_mod_right, Nat.mod_eq_of_lt (by omega)]
  unfold dataLen
  rcases hstop with ⟨h0, t, ht⟩ | ⟨h1, t, ht⟩ | h2
  · subst ht
    rw [if_pos h0, header_strlen nr eb p t hp, hfz]
    simp only [hmod]
  · rw [if_neg (by omega), header_strnlen nr eb p tail n hp (Or.inr ⟨h1, t, ht⟩), hfz]
    simp only [hmod]
  · rw [if_neg (by omega), header_strnlen nr eb p tail n hp (Or.inl h2), hfz]
    simp only [hmod]

/-! ## Size of the encoder output -/

theorem escapes_append (nr eb : Nat) (A B : List Nat) :
    escapes nr eb (A ++ B) = escapes nr eb A + escapes nr eb B := by
  unfold escapes
  exact List.countP_append _ A B

/-- With room left in the allocation the write loop without the bound test
appends the payload. -/
theorem encode_loop_unguarded_eq (reqSize nr eb : Nat) (S : List Nat) :
    ∀ encoded, encoded.length + (payload nr eb S).length < reqSize →
      encode_loop_unguarded reqSize nr eb S encoded
        = Run.returns (encoded ++ payload nr eb S) := by
  induction S with
  | nil => intro encoded _; simp [encode_loop_unguarded, payload_nil]
  | cons d rest ih =>
    intro encoded hroom
    rw [payload_cons, List.length_append] at hroom
    rw [encode_loop_unguarded, payload_cons]
    by_cases hd : d = 0
    · have hf : spec_f nr eb d = [nr] := by simp [spec_f, hd]
      rw [hf] at hroom ⊢
      simp only [List.length_singleton] at hroom
      rw [if_pos hd]
      simp only [store, if_pos (show encoded.length < reqSize by omega)]
      rw [ih (encoded ++ [nr]) (by simp; omega)]
      simp
    · rw [if_neg hd]
      by_cases hm : d = nr ∨ d = eb
      · have hf : spec_f nr eb d = [eb, d] := by simp [spec_f, hd, hm]
        rw [hf] at hroom ⊢
        simp only [List.length_cons, List.length_nil] at hroom
        rw [if_pos hm]
        simp only [store, if_pos (show encoded.length < reqSize by omega)]
        rw [if_pos (show (encoded ++ [eb]).length < reqSize by simp; omega)]
        simp only []
        rw [ih (encoded ++ [eb] ++ [d]) (by simp; omega)]
        simp
      · have hf : spec_f nr eb d = [d] := by simp [spec_f, hd, hm]
        rw [hf] at hroom ⊢
        simp only [List.length_singleton] at hroom
        rw [if_neg hm]
        simp only [store, if_pos (show encoded.length < reqSize by omega)]
        rw [ih (encoded ++ [d]) (by simp; omega)]
        simp

/-- The encoder with any markers, on an input whose worst-case encoding fits
`size_t`: header, payload and terminator, then the untouched zero fill. -/
theorem encode_with_escapes_any (w : Nat) (S : List Nat) (nr eb : Nat)
    (hfit : 2 * S.length + 5 < 2 ^ w) :
    base254_encode_with_escapes w S nr eb
      = Run.returns ([98, 254, nr, eb] ++ payload nr eb S ++ [0]
          ++ List.replicate
            (requiredSize w S nr eb - ([98, 254, nr, eb] ++ payload nr eb S ++ [0]).length) 0) := by
  have hreq := requiredSize_eq w nr eb S hfit
  have hlen := payload_length_le nr eb S
  have hle := escapes_le_length nr eb S
  unfold base254_encode_with_escapes
  simp only []
  have hhead : encode_header (requiredSize w S nr eb) nr eb = Run.returns [98, 254, nr, eb] := by
    simp [encode_header, store, hreq]
  rw [hhead]
  simp only []
  rw [encode_loop_eq w _ nr eb (by omega) S [98, 254, nr, eb] (by simp; omega)]
  simp only [store]
  rw [if_pos (by simp; omega)]

/-! ## Expansion of the top-level encoder -/

theorem escapes_eq_count (nr eb : Nat) (S : List Nat) (hne : nr ≠ eb) :
    escapes nr eb S = S.count nr + S.count eb := by
  induction S with
  | nil => simp [escapes]
  | cons d rest ih =>
    rw [escapes_cons, List.count_cons, List.count_cons, ih]
    simp only [beq_iff_eq]
    by_cases h1 : d = nr
    · have h2 : d ≠ eb := fun e => hne (h1.symm.trans e)
      rw [if_pos (Or.inl h1), if_pos h1, if_neg h2]
      omega
    · by_cases h2 : d = eb
      · rw [if_pos (Or.inr h2), if_neg h1, if_pos h2]
        omega
      · rw [if_neg (fun h => h.elim h1 h2), if_neg h1, if_neg h2]
        omega

theorem escapes_self (v : Nat) (S : List Nat) : escapes v v S = S.count v := by
  induction S with
  | nil => simp [escapes]
  | cons d rest ih =>
    rw [escapes_cons, List.count_cons, ih]
    simp only [beq_iff_eq, or_self]

theorem sum_indicator (d : Nat) (L : List Nat) :
    (L.map (fun y => if d = y then 1 else 0)).sum = L.count d := by
  induction L with
  | nil => simp
  | cons x rest ih =>
    rw [List.map_cons, List.sum_cons, ih, List.count_cons]
    simp only [beq_iff_eq]
    by_cases h : d = x
    · rw [if_pos h, if_pos h.symm]; omega
    · rw [if_neg h, if_neg (fun e => h e.symm)]; omega

/-- The occurrences of distinct values add up to at most the length. -/
theorem sum_count_le (L : List Nat) (hL : L.Nodup) (S : List Nat) :
    (L.map (fun y => S.count y)).sum ≤ S.length := by
  induction S with
  | nil => simp
  | cons d rest ih =>
    have h1 : (L.map (fun y => (d :: rest).count y))
        = L.map (fun y => rest.count y + if d = y then 1 else 0) := by
      apply List.map_congr_left
      intro y _
      rw [List.count_cons]
      simp only [beq_iff_eq]
    rw [h1, List.sum_map_add, sum_indicator, List.length_cons]
    have := List.nodup_iff_count_le_one.mp hL d
    omega

theorem sum_two_values (x a b : Nat) (L : List Nat) :
    (L.map (fun y => if y = x then a else b)).sum + b * L.count x
      = a * L.count x + b * L.length := by
  induction L with
  | nil => simp
  | cons y rest ih =>
    rw [List.map_cons, List.sum_cons, List.count_cons, List.length_cons]
    simp only [beq_iff_eq]
    by_cases h : y = x
    · simp only [if_pos h, Nat.mul_add, Nat.mul_one]
      omega
    · simp only [if_neg h, Nat.mul_add, Nat.mul_one, Nat.add_zero]
      omega

/-- The two least used values of `1 .. 255` account for at most `2N/255` bytes. -/
theorem least_two_bound (S : List Nat) (x e : Nat) (hx : 1 ≤ x ∧ x ≤ 255)
    (he : 1 ≤ e ∧ e ≤ 255)
    (hmin : ∀ y, 1 ≤ y → y ≤ 255 → S.count x ≤ S.count y)
    (hsec : ∀ y, 1 ≤ y → y ≤ 255 → y ≠ x → S.count e ≤ S.count y) :
    S.count x + S.count e ≤ 2 * S.length / 255 := by
  have hnd : (List.range' 1 255).Nodup := List.nodup_range' 1 255
  have hmem : x ∈ List.range' 1 255 := by
    rw [List.mem_range'_1]; omega
  have hcnt : (List.range' 1 255).count x = 1 := List.count_eq_one_of_mem hnd hmem
  have hsum := sum_count_le (List.range' 1 255) hnd S
  have hlow : ((List.range' 1 255).map (fun y => if y = x then S.count x else S.count e)).sum
      ≤ ((List.range' 1 255).map (fun y => S.count y)).sum := by
    apply List.sum_le_sum
    intro y hy
    rw [List.mem_range'_1] at hy
    by_cases h : y = x
    · rw [if_pos h, h]
    · rw [if_neg h]
      exact hsec y hy.1 (by omega) h
  have htwo := sum_two_values x (S.count x) (S.count e) (List.range' 1 255)
  rw [hcnt, List.length_range'] at htwo
  have hab := hmin e he.1 he.2
  omega

/-! ## The limit of the decoder -/

/-- A body scan that stops after the non-zero bytes `p`, at a zero byte or at
the limit, is the scan without limit of `p` followed by a zero byte. -/
theorem decode_loop_stop (nr eb n cap : Nat) (tail : List Nat) (p : List Nat) :
    (∀ c ∈ p, c ≠ 0) → ∀ i esc out,
      ((n = 0 ∧ ∃ t, tail = 0 :: t) ∨ (i + p.length < n ∧ ∃ t, tail = 0 :: t) ∨
        (n = i + p.length ∧ n ≠ 0)) →
      decode_loop nr eb n cap (p ++ tail) i esc out
        = decode_loop nr eb 0 cap (p ++ [0]) i esc out := by
  induction p with
  | nil =>
    intro _ i esc out hstop
    simp only [List.nil_append]
    rw [decode_loop_zero nr eb 0 cap [] i esc out]
    rcases hstop with ⟨_, t, ht⟩ | ⟨_, t, ht⟩ | ⟨h1, h2⟩
    · rw [ht, decode_loop_zero]
    · rw [ht, decode_loop_zero]
    · exact decode_loop_limit nr eb n cap tail i esc out h2 (by simp at h1; omega)
  | cons c rest ih =>
    intro hp i esc out hstop
    simp only [List.length_cons] at hstop
    have hc : c ≠ 0 := hp c (List.mem_cons_self c rest)
    have hrest : ∀ x ∈ rest, x ≠ 0 := fun x hx => hp x (List.mem_cons_of_mem c hx)
    have hg : (i < n ∨ n = 0) ∧ c ≠ 0 := ⟨by omega, hc⟩
    have hg0 : (i < 0 ∨ 0 = 0) ∧ c ≠ 0 := ⟨Or.inr rfl, hc⟩
    have hnext : (n = 0 ∧ ∃ t, tail = 0 :: t) ∨ (i + 1 + rest.length < n ∧ ∃ t, tail = 0 :: t) ∨
        (n = i + 1 + rest.length ∧ n ≠ 0) := by
      rcases hstop with ⟨h, ht⟩ | ⟨h, ht⟩ | ⟨h1, h2⟩
      · exact Or.inl ⟨h, ht⟩
      · exact Or.inr (Or.inl ⟨by omega, ht⟩)
      · exact Or.inr (Or.inr ⟨by omega, h2⟩)
    rw [List.cons_append, List.cons_append, decode_loop, decode_loop, if_pos hg, if_pos hg0]
    simp only [store]
    by_cases hroom : out.length < cap
    · simp only [if_pos hroom]
      rw [ih hrest (i + 1) true out hnext, ih hrest (i + 1) false (out ++ [c]) hnext,
        ih hrest (i + 1) false (out ++ [0]) hnext]
    · simp only [if_neg hroom]
      rw [ih hrest (i + 1) true out hnext]

/-- The decoder on a buffer whose scan stops after the non-zero bytes `q`, at
least four, is the decoder without limit on `q` followed by a zero byte. -/
theorem decode_n_stop (w : Nat) (q tail : List Nat) (n : Nat) (hq : ∀ c ∈ q, c ≠ 0)
    (h4 : 4 ≤ q.length)
    (hstop : (n = 0 ∧ ∃ t, tail = 0 :: t) ∨ (q.length < n ∧ ∃ t, tail = 0 :: t) ∨
      n = q.length) :
    base254_decode_n w (q ++ tail) n = base254_decode_n w (q ++ [0]) 0 := by
  match q, hq, h4, hstop with
  | d0 :: d1 :: nr :: eb :: p, hq, _, hstop =>
    simp only [List.length_cons] at hstop
    have hp : ∀ c ∈ p, c ≠ 0 := fun c hc => hq c (by simp [hc])
    have hlen0 : strlen (d0 :: d1 :: nr :: eb :: p ++ [0])
        = Run.returns (d0 :: d1 :: nr :: eb :: p).length :=
      strlen_append_zero (d0 :: d1 :: nr :: eb :: p) [] hq
    have hlenn : (if n = 0 then strlen (d0 :: d1 :: nr :: eb :: p ++ tail)
          else strnlen (d0 :: d1 :: nr :: eb :: p ++ tail) n)
        = Run.returns (d0 :: d1 :: nr :: eb :: p).length := by
      rcases hstop with ⟨h0, t, ht⟩ | ⟨h1, t, ht⟩ | h2
      · rw [if_pos h0, ht]
        exact strlen_append_zero _ t hq
      · rw [if_neg (by omega)]
        exact strnlen_prefix _ hq n tail (Or.inr ⟨by simpa using h1, t, ht⟩)
      · rw [if_neg (by omega)]
        exact strnlen_prefix _ hq n tail (Or.inl (by simpa using h2))
    have hdl : dataLen w (d0 :: d1 :: nr :: eb :: p ++ tail) n
        = dataLen w (d0 :: d1 :: nr :: eb :: p ++ [0]) 0 := by
      unfold dataLen
      rw [hlenn, if_pos rfl, hlen0]
    have hloop : ∀ cap, decode_loop nr eb n cap (p ++ tail) 4 false []
        = decode_loop nr eb 0 cap (p ++ [0]) 4 false [] := by
      intro cap
      apply decode_loop_stop nr eb n cap tail p hp 4 false []
      rcases hstop with ⟨h, ht⟩ | ⟨h, ht⟩ | h
      · exact Or.inl ⟨h, ht⟩
      · exact Or.inr (Or.inl ⟨by omega, ht⟩)
      · exact Or.inr (Or.inr ⟨by omega, by omega⟩)
    unfold base254_decode_n
    rw [if_neg (by omega), if_neg (by omega)]
    simp only [List.cons_append]
    simp only [List.cons_append] at hdl
    rw [hdl]
    by_cases h0 : d0 = 98
    · by_cases h1 : d1 = 254
      · simp only [h0, h1, ne_eq, not_true_eq_false, if_false]
        cases dataLen w (98 :: 254 :: nr :: eb :: (p ++ [0])) 0 with
        | undefined => rfl
        | aborted => rfl
        | returns len =>
          simp only [hloop len]
      · simp [h0, h1]
    · simp [h0]

theorem strnlen_take (l : List Nat) : ∀ n, strnlen (l.take n) n = strnlen l n := by
  induction l with
  | nil => intro n; simp
  | cons c rest ih =>
    intro n
    cases n with
    | zero => simp [strnlen]
    | succ m =>
      rw [List.take_succ_cons, strnlen, strnlen, ih m]

theorem decode_loop_take (nr eb n cap : Nat) (hn : n ≠ 0) (rest : List Nat) :
    ∀ i esc out,
      decode_loop nr eb n cap (rest.take (n - i)) i esc out
        = decode_loop nr eb n cap rest i esc out := by
  induction rest with
  | nil => intro i esc out; simp
  | cons c r ih =>
    intro i esc out
    by_cases hi : i < n
    · have hsub : n - i = (n - (i + 1)) + 1 := by omega
      rw [hsub, List.take_succ_cons, decode_loop, decode_loop]
      by_cases hg : (i < n ∨ n = 0) ∧ c ≠ 0
      · rw [if_pos hg, if_pos hg]
        simp only [store]
        by_cases hroom : out.length < cap
        · simp only [if_pos hroom]
          rw [ih (i + 1) true out, ih (i + 1) false (out ++ [c]), ih (i + 1) false (out ++ [0])]
        · simp only [if_neg hroom]
          rw [ih (i + 1) true out]
      · rw [if_neg hg, if_neg hg]
    · have hsub : n - i = 0 := by omega
      rw [hsub, List.take_zero, decode_loop_limit nr eb n cap [] i esc out hn (by omega),
        decode_loop_limit nr eb n cap (c :: r) i esc out hn (by omega)]

/-- With a limit of at least four the decoder depends on the first `n` bytes only. -/
theorem decode_n_take (w : Nat) (data : List Nat) (n : Nat) (hn : 4 ≤ n) :
    base254_decode_n w (data.take n) n = base254_decode_n w data n := by
  obtain ⟨m, rfl⟩ : ∃ m, n = m + 4 := ⟨n - 4, by omega⟩
  have hdl : dataLen w (data.take (m + 4)) (m + 4) = dataLen w data (m + 4) := by
    unfold dataLen
    rw [if_neg (by omega), if_neg (by omega), strnlen_take]
  unfold base254_decode_n
  rw [if_neg (by omega), if_neg (by omega), hdl]
  match data with
  | [] => simp
  | [d0] => simp
  | [d0, d1] => simp
  | [d0, d1, d2] => simp
  | d0 :: d1 :: nr :: eb :: body =>
    simp only [List.take_succ_cons]
    have hloop : ∀ cap, decode_loop nr eb (m + 4) cap (body.take m) 4 false []
        = decode_loop nr eb (m + 4) cap body 4 false [] := by
      intro cap
      have := decode_loop_take nr eb (m + 4) cap (by omega) body 4 false []
      simpa using this
    simp only [hloop]

theorem escapes_pos_of_mem (v : Nat) (S : List Nat) (h : v ∈ S) : 0 < escapes v v S := by
  unfold escapes
  rw [List.countP_pos_iff]
  exact ⟨v, h, by simp⟩

/-! ## Claims -/

/-- C1: round trip through the top-level entry points.  For every byte
sequence `S` whose worst-case encoding fits `size_t`, `base254_encode` returns
a buffer on which `base254_decode` succeeds with data `S` and size `|S|`. -/
theorem roundtrip_encode_decode (w : Nat) (S : List Nat) (hfit : 2 * S.length + 5 < 2 ^ w) :
    ∃ enc, base254_encode w S = Run.returns enc ∧
      base254_decode w enc = Run.returns (some ⟨S, S.length⟩) := by
  obtain ⟨h1, _, h3, _, hcond⟩ := markers_spec w S (by omega)
  refine ⟨[98, 254, (markers w S).1, (markers w S).2]
    ++ payload (markers w S).1 (markers w S).2 S ++ [0], ?_, ?_⟩
  · exact encode_with_escapes_eq w S _ _ (by omega) (by omega) hfit
  · exact decode_spec_encode w S _ _ (by omega) (by omega) hfit hcond

/-- Witness of C1 on the empty input, an all-zero input and an input with
zero, marker-valued and high bytes. -/
theorem roundtrip_encode_decode_witness :
    (2 * ([] : List Nat).length + 5 < 2 ^ 64 ∧
      ∃ enc, base254_encode 64 [] = Run.returns enc ∧
        base254_decode 64 enc = Run.returns (some ⟨[], 0⟩)) ∧
    (2 * [0, 0].length + 5 < 2 ^ 64 ∧
      ∃ enc, base254_encode 64 [0, 0] = Run.returns enc ∧
        base254_decode 64 enc = Run.returns (some ⟨[0, 0], 2⟩)) ∧
    (2 * [0, 1, 65, 255].length + 5 < 2 ^ 64 ∧
      ∃ enc, base254_encode 64 [0, 1, 65, 255] = Run.returns enc ∧
        base254_decode 64 enc = Run.returns (some ⟨[0, 1, 65, 255], 4⟩)) :=
  ⟨⟨by norm_num, roundtrip_encode_decode 64 [] (by norm_num)⟩,
   ⟨by norm_num, roundtrip_encode_decode 64 [0, 0] (by norm_num)⟩,
   ⟨by norm_num, roundtrip_encode_decode 64 [0, 1, 65, 255] (by norm_num)⟩⟩

/-- C2, counterexample: with `null_replacement = escape_byte = 5` the input
`[5]` is encoded as `b, 254, 5, 5, 5, 5, 0`, which decodes to `[0, 0]`. -/
theorem roundtrip_equal_markers_fails :
    base254_encode_with_escapes 64 [5] 5 5 = Run.returns [98, 254, 5, 5, 5, 5, 0] ∧
      base254_decode 64 [98, 254, 5, 5, 5, 5, 0] = Run.returns (some ⟨[0, 0], 2⟩) ∧
      (⟨[0, 0], 2⟩ : base254_data) ≠ ⟨[5], 1⟩ := by
  decide

/-- C2, amended: round trip with caller-supplied markers.  For every byte
sequence `S` and markers in `[1,255]` that are distinct, or equal to a value
that does not occur in `S`, decoding the output of
`base254_encode_with_escapes` succeeds with data `S` and size `|S|`. -/
theorem roundtrip_with_markers (w : Nat) (S : List Nat) (nr eb : Nat)
    (hnr : 1 ≤ nr ∧ nr ≤ 255) (heb : 1 ≤ eb ∧ eb ≤ 255)
    (hcond : nr ≠ eb ∨ nr ∉ S) (hfit : 2 * S.length + 5 < 2 ^ w) :
    ∃ enc, base254_encode_with_escapes w S nr eb = Run.returns enc ∧
      base254_decode w enc = Run.returns (some ⟨S, S.length⟩) :=
  ⟨[98, 254, nr, eb] ++ payload nr eb S ++ [0],
    encode_with_escapes_eq w S nr eb (by omega) (by omega) hfit,
    decode_spec_encode w S nr eb (by omega) (by omega) hfit hcond⟩

/-- Witness of the amended C2 on `[5, 0, 6, 7]` with markers 5 and 6. -/
theorem roundtrip_with_markers_witness :
    ((1 ≤ 5 ∧ 5 ≤ 255) ∧ (1 ≤ 6 ∧ 6 ≤ 255) ∧ (5 ≠ 6 ∨ 5 ∉ [5, 0, 6, 7]) ∧
      2 * [5, 0, 6, 7].length + 5 < 2 ^ 64) ∧
    ∃ enc, base254_encode_with_escapes 64 [5, 0, 6, 7] 5 6 = Run.returns enc ∧
      base254_decode 64 enc = Run.returns (some ⟨[5, 0, 6, 7], 4⟩) :=
  ⟨⟨by decide, by decide, Or.inl (by decide), by norm_num⟩,
    roundtrip_with_markers 64 [5, 0, 6, 7] 5 6 (by decide) (by decide)
      (Or.inl (by decide)) (by norm_num)⟩

/-- C3: terminator safety.  For markers in `[1,255]` the buffer written by
`base254_encode_with_escapes` holds exactly one zero byte and it is its last
byte; the same holds for the buffer written by `base254_encode`. -/
theorem terminator_safety (w : Nat) (S : List Nat) (nr eb : Nat)
    (hnr : 1 ≤ nr ∧ nr ≤ 255) (heb : 1 ≤ eb ∧ eb ≤ 255)
    (hfit : 2 * S.length + 5 < 2 ^ w) :
    (∃ buf, base254_encode_with_escapes w S nr eb = Run.returns buf ∧
      buf.count 0 = 1 ∧ buf.getLast? = some 0) ∧
    (∃ buf, base254_encode w S = Run.returns buf ∧
      buf.count 0 = 1 ∧ buf.getLast? = some 0) := by
  obtain ⟨h1, _, h3, _, _⟩ := markers_spec w S (by omega)
  constructor
  · exact ⟨_, encode_with_escapes_eq w S nr eb (by omega) (by omega) hfit,
      encoded_single_zero nr eb (by omega) (by omega) S⟩
  · exact ⟨_, encode_with_escapes_eq w S _ _ (by omega) (by omega) hfit,
      encoded_single_zero _ _ (by omega) (by omega) S⟩

/-- Witness of C3 on `[0, 7, 0, 9]` with markers 7 and 9. -/
theorem terminator_safety_witness :
    ((1 ≤ 7 ∧ 7 ≤ 255) ∧ (1 ≤ 9 ∧ 9 ≤ 255) ∧ 2 * [0, 7, 0, 9].length + 5 < 2 ^ 64) ∧
    (∃ buf, base254_encode_with_escapes 64 [0, 7, 0, 9] 7 9 = Run.returns buf ∧
      buf.count 0 = 1 ∧ buf.getLast? = some 0) ∧
    (∃ buf, base254_encode 64 [0, 7, 0, 9] = Run.returns buf ∧
      buf.count 0 = 1 ∧ buf.getLast? = some 0) :=
  ⟨⟨by decide, by decide, by norm_num⟩,
    terminator_safety 64 [0, 7, 0, 9] 7 9 (by decide) (by decide) (by norm_num)⟩

/-- C4: encoder reference definition.  For markers in `[1,255]`,
`base254_encode_with_escapes` returns `b, 254, nr, eb`, then the images of the
input bytes under `spec_f` in input order, then `0`. -/
theorem encode_with_escapes_reference (w : Nat) (S : List Nat) (nr eb : Nat)
    (hnr : 1 ≤ nr ∧ nr ≤ 255) (heb : 1 ≤ eb ∧ eb ≤ 255)
    (hfit : 2 * S.length + 5 < 2 ^ w) :
    base254_encode_with_escapes w S nr eb = Run.returns (spec_encode S nr eb) :=
  encode_with_escapes_eq w S nr eb (by omega) (by omega) hfit

/-- Witness of C4: the two examples of the specification. -/
theorem encode_with_escapes_reference_witness :
    base254_encode_with_escapes 64 [0x00, 0x41, 0x41] 1 2
        = Run.returns [98, 254, 1, 2, 1, 0x41, 0x41, 0] ∧
      base254_encode_with_escapes 64 [5, 5] 5 6
        = Run.returns [98, 254, 5, 6, 6, 5, 6, 5, 0] :=
  ⟨(encode_with_escapes_reference 64 [0x00, 0x41, 0x41] 1 2 (by decide) (by decide)
      (by norm_num)).trans (by decide),
   (encode_with_escapes_reference 64 [5, 5] 5 6 (by decide) (by decide)
      (by norm_num)).trans (by decide)⟩

/-- C5, counterexample: the payload `65, 2` of the buffer `b, 254, 1, 2, 65,
2, 0` ends the scan in state `Escaped`, and both `base254_decode` and
`base254_decode_n` with limit 6 return the result `[65]` of size 1, not `NULL`. -/
theorem truncated_escape_not_rejected :
    (spec_scan 1 2 false [65, 2]).1 = true ∧
      base254_decode 64 [98, 254, 1, 2, 65, 2, 0] = Run.returns (some ⟨[65], 1⟩) ∧
      base254_decode_n 64 [98, 254, 1, 2, 65, 2, 0] 6 = Run.returns (some ⟨[65], 1⟩) := by
  decide

/-- C5, amended: a truncated escape pair is dropped, not rejected.  On a
buffer that starts with `b`, 254 and two markers, the null replacement
non-zero, and whose payload scan, over the non-zero bytes `p` up to the first
zero byte or the limit, ends in state `Escaped`, the last byte of `p` is the
escape byte, the markers differ and `base254_decode_n` (`base254_decode` for
limit 0) returns the result decoded from `p` without that byte. -/
theorem truncated_escape_dropped (w nr eb : Nat) (p tail : List Nat) (n : Nat)
    (hnr : nr ≠ 0) (hp : ∀ c ∈ p, c ≠ 0)
    (hstop : (n = 0 ∧ ∃ t, tail = 0 :: t) ∨ (4 + p.length < n ∧ ∃ t, tail = 0 :: t) ∨
      n = 4 + p.length)
    (hfit : 4 + p.length < 2 ^ w)
    (hesc : (spec_scan nr eb false p).1 = true) :
    ∃ p0, p = p0 ++ [eb] ∧ nr ≠ eb ∧ (spec_scan nr eb false p0).1 = false ∧
      base254_decode_n w (98 :: 254 :: nr :: eb :: (p ++ tail)) n
        = Run.returns (some ⟨(spec_scan nr eb false p0).2,
            (spec_scan nr eb false p0).2.length⟩) := by
  rcases spec_scan_escaped nr eb p false hesc with ⟨h, _⟩ | ⟨p0, hp0, hne, hs, ho⟩
  · exact absurd h (by decide)
  · have heb : eb ≠ 0 := hp eb (by rw [hp0]; simp)
    refine ⟨p0, hp0, fun e => hne e.symm, hs, ?_⟩
    rw [decode_n_scan w nr eb p tail n hnr heb hp hstop hfit, ho]

/-- Witness of the amended C5 on the buffer `b, 254, 1, 2, 65, 2, 0`. -/
theorem truncated_escape_dropped_witness :
    (1 ≠ 0 ∧ (∀ c ∈ [65, 2], c ≠ 0) ∧ 4 + [65, 2].length < 2 ^ 64 ∧
      (spec_scan 1 2 false [65, 2]).1 = true) ∧
    ∃ p0, [65, 2] = p0 ++ [2] ∧ 1 ≠ 2 ∧ (spec_scan 1 2 false p0).1 = false ∧
      base254_decode_n 64 (98 :: 254 :: 1 :: 2 :: ([65, 2] ++ [0])) 0
        = Run.returns (some ⟨(spec_scan 1 2 false p0).2,
            (spec_scan 1 2 false p0).2.length⟩) :=
  ⟨⟨by decide, by decide, by norm_num, by decide⟩,
    truncated_escape_dropped 64 1 2 [65, 2] [0] 0 (by decide) (by decide)
      (Or.inl ⟨rfl, [], rfl⟩) (by norm_num) (by decide)⟩

/-- C6: malformed header rejection.  On a buffer of at least two bytes whose
first two bytes are not `b` (98) then 254, `base254_decode_n` with any limit
and `base254_decode` return `NULL`. -/
theorem malformed_header_rejected (w : Nat) (data : List Nat) (n : Nat)
    (hlen : 2 ≤ data.length) (hbad : ¬ (data[0]? = some 98 ∧ data[1]? = some 254)) :
    base254_decode_n w data n = Run.returns none ∧
      base254_decode w data = Run.returns none := by
  have key : ∀ m, base254_decode_n w data m = Run.returns none := by
    intro m
    match data, hlen, hbad with
    | d0 :: d1 :: t, _, hbad =>
      simp only [List.getElem?_cons_zero, List.getElem?_cons_succ, Option.some.injEq] at hbad
      unfold base254_decode_n
      by_cases hm : m < 4 ∧ m ≠ 0
      · rw [if_pos hm]
      · rw [if_neg hm]
        by_cases h0 : d0 = 98
        · have h1 : d1 ≠ 254 := fun e => hbad ⟨h0, e⟩
          simp [h0, h1]
        · simp [h0]
  exact ⟨key n, key 0⟩

/-- Witness of C6 on a buffer with a wrong second byte. -/
theorem malformed_header_rejected_witness :
    base254_decode_n 64 [98, 253, 1, 2, 65, 0] 6 = Run.returns none ∧
      base254_decode 64 [98, 253, 1, 2, 65, 0] = Run.returns none :=
  malformed_header_rejected 64 [98, 253, 1, 2, 65, 0] 6 (by decide) (by decide)

/-- C7: truncation rejection.  With an explicit limit of 1, 2 or 3,
`base254_decode_n` returns `NULL` on every buffer. -/
theorem truncated_limit_rejected (w : Nat) (data : List Nat) (n : Nat)
    (hn : n = 1 ∨ n = 2 ∨ n = 3) :
    base254_decode_n w data n = Run.returns none := by
  unfold base254_decode_n
  rw [if_pos (by omega)]

/-- Witness of C7 on a well-formed buffer with limit 3. -/
theorem truncated_limit_rejected_witness :
    base254_decode_n 64 [98, 254, 1, 1, 65, 0] 3 = Run.returns none :=
  truncated_limit_rejected 64 [98, 254, 1, 1, 65, 0] 3 (by decide)

/-- C8: marker validity.  The two markers `base254_encode` selects are each in
`[1,255]`, and they are the bytes at offsets 2 and 3 of the buffer it returns. -/
theorem marker_validity (w : Nat) (S : List Nat) (hfit : 2 * S.length + 5 < 2 ^ w) :
    (1 ≤ (markers w S).1 ∧ (markers w S).1 ≤ 255) ∧
      (1 ≤ (markers w S).2 ∧ (markers w S).2 ≤ 255) ∧
      ∃ buf, base254_encode w S = Run.returns buf ∧
        buf[2]? = some (markers w S).1 ∧ buf[3]? = some (markers w S).2 := by
  obtain ⟨h1, h2, h3, h4, _⟩ := markers_spec w S (by omega)
  refine ⟨⟨h1, h2⟩, ⟨h3, h4⟩, _, encode_with_escapes_eq w S _ _ (by omega) (by omega) hfit, ?_, ?_⟩
  · simp
  · simp

/-- Witness of C8 on `[0, 1, 2, 1, 2]`. -/
theorem marker_validity_witness :
    2 * [0, 1, 2, 1, 2].length + 5 < 2 ^ 64 ∧
      (1 ≤ (markers 64 [0, 1, 2, 1, 2]).1 ∧ (markers 64 [0, 1, 2, 1, 2]).1 ≤ 255) ∧
      (1 ≤ (markers 64 [0, 1, 2, 1, 2]).2 ∧ (markers 64 [0, 1, 2, 1, 2]).2 ≤ 255) ∧
      ∃ buf, base254_encode 64 [0, 1, 2, 1, 2] = Run.returns buf ∧
        buf[2]? = some (markers 64 [0, 1, 2, 1, 2]).1 ∧
        buf[3]? = some (markers 64 [0, 1, 2, 1, 2]).2 :=
  ⟨by norm_num, marker_validity 64 [0, 1, 2, 1, 2] (by norm_num)⟩

/-- C9: choice of `null_replacement`.  The first marker `base254_encode`
selects is a value of `[1,255]` whose number of occurrences in `S` is minimal
over `[1,255]`, and every smaller value of `[1,255]` occurs strictly more often. -/
theorem null_replacement_choice (w : Nat) (S : List Nat) (hlen : S.length < 2 ^ w) :
    (1 ≤ (markers w S).1 ∧ (markers w S).1 ≤ 255) ∧
      (∀ y, 1 ≤ y → y ≤ 255 → S.count (markers w S).1 ≤ S.count y) ∧
      (∀ y, 1 ≤ y → y < (markers w S).1 → S.count (markers w S).1 < S.count y) := by
  rw [markers_fst]
  obtain ⟨h1, h2, _, hall⟩ := min_scan_spec w S hlen
  refine ⟨⟨h1, h2⟩, fun y hy1 hy2 => (hall y hy1 hy2).1, ?_⟩
  intro y hy1 hy2
  exact (hall y hy1 (by omega)).2 hy2

/-- Witness of C9 on `[1, 2, 1, 2, 3, 3, 3]`. -/
theorem null_replacement_choice_witness :
    [1, 2, 1, 2, 3, 3, 3].length < 2 ^ 64 ∧
      (1 ≤ (markers 64 [1, 2, 1, 2, 3, 3, 3]).1 ∧ (markers 64 [1, 2, 1, 2, 3, 3, 3]).1 ≤ 255) ∧
      (∀ y, 1 ≤ y → y ≤ 255 →
        [1, 2, 1, 2, 3, 3, 3].count (markers 64 [1, 2, 1, 2, 3, 3, 3]).1
          ≤ [1, 2, 1, 2, 3, 3, 3].count y) ∧
      (∀ y, 1 ≤ y → y < (markers 64 [1, 2, 1, 2, 3, 3, 3]).1 →
        [1, 2, 1, 2, 3, 3, 3].count (markers 64 [1, 2, 1, 2, 3, 3, 3]).1
          < [1, 2, 1, 2, 3, 3, 3].count y) :=
  ⟨by norm_num, null_replacement_choice 64 [1, 2, 1, 2, 3, 3, 3] (by norm_num)⟩

/-- C10: choice of `escape_byte`.  With `v` the null replacement that
`base254_encode` selects: when `v` does not occur in `S` the escape byte is
`v`; otherwise it is a value of `[1,255]` other than `v` whose number of
occurrences is minimal among those values, the smallest such value.  On the
empty input both markers are 1. -/
theorem escape_byte_choice (w : Nat) (S : List Nat) (hlen : S.length < 2 ^ w) :
    (S.count (markers w S).1 = 0 → (markers w S).2 = (markers w S).1) ∧
      (S.count (markers w S).1 ≠ 0 →
        (markers w S).2 ≠ (markers w S).1 ∧
        (1 ≤ (markers w S).2 ∧ (markers w S).2 ≤ 255) ∧
        (∀ y, 1 ≤ y → y ≤ 255 → y ≠ (markers w S).1 →
          S.count (markers w S).2 ≤ S.count y) ∧
        (∀ y, 1 ≤ y → y < (markers w S).2 → y ≠ (markers w S).1 →
          S.count (markers w S).2 < S.count y)) ∧
      markers w [] = (1, 1) := by
  obtain ⟨_, _, hvm, _⟩ := min_scan_spec w S hlen
  refine ⟨?_, ?_, ?_⟩
  · intro h0
    rw [markers_fst] at h0
    have hm : minUse w S = 0 := by rw [hvm]; exact h0
    unfold markers
    rw [if_pos hm]
  · intro h0
    rw [markers_fst] at h0
    have hm : minUse w S ≠ 0 := by rw [hvm]; exact h0
    obtain ⟨he1, he2, he3, hall⟩ := second_scan_spec w S hlen hm
    have hmk : markers w S = (minUsedChar w S, secondMinUsedChar w S) := by
      unfold markers
      rw [if_neg hm]
    rw [hmk]
    dsimp only
    refine ⟨he3, ⟨he1, he2⟩, fun y hy1 hy2 hy3 => (hall y hy1 hy2 hy3).1, ?_⟩
    intro y hy1 hy2 hy3
    exact (hall y hy1 (by omega) hy3).2 hy2
  · obtain ⟨h1, h2, hm, hall⟩ := min_scan_spec w [] (Nat.two_pow_pos w)
    have hv : minUsedChar w [] = 1 := by
      by_contra hne
      have := (hall 1 (le_refl _) (by omega)).2 (by omega)
      simp at this
    have hm0 : minUse w [] = 0 := by rw [hm]; simp
    unfold markers
    rw [if_pos hm0, hv]

set_option maxRecDepth 100000

/-- Witness of C10 on an input in which every value of `1 .. 255` occurs, 1 and
2 twice: the markers are 3 and 4. -/
theorem escape_byte_choice_witness :
    every_value_input.length < 2 ^ 64 ∧
      markers 64 every_value_input = (3, 4) ∧
      (every_value_input.count (markers 64 every_value_input).1 = 0 →
        (markers 64 every_value_input).2 = (markers 64 every_value_input).1) ∧
      (every_value_input.count (markers 64 every_value_input).1 ≠ 0 →
        (markers 64 every_value_input).2 ≠ (markers 64 every_value_input).1 ∧
        (1 ≤ (markers 64 every_value_input).2 ∧ (markers 64 every_value_input).2 ≤ 255) ∧
        (∀ y, 1 ≤ y → y ≤ 255 → y ≠ (markers 64 every_value_input).1 →
          every_value_input.count (markers 64 every_value_input).2
            ≤ every_value_input.count y) ∧
        (∀ y, 1 ≤ y → y < (markers 64 every_value_input).2 →
          y ≠ (markers 64 every_value_input).1 →
          every_value_input.count (markers 64 every_value_input).2
            < every_value_input.count y)) ∧
      markers 64 [] = (1, 1) :=
  ⟨by decide, by decide, escape_byte_choice 64 every_value_input (by decide)⟩

/-- C11: a sentinel header disables escaping in the decoder.  On a buffer `b`,
254, `v`, `v`, payload `p` of non-zero bytes, terminator, with `v` non-zero:
`base254_decode` returns as many bytes as the payload has, byte `j` being 0
where payload byte `j` is `v` and payload byte `j` otherwise; and after every
part `q` of the payload the body scan is in state `escape = false` with one
output byte per byte of `q`. -/
theorem sentinel_header_no_escape (w v : Nat) (p t : List Nat) (hv : v ≠ 0)
    (hp : ∀ c ∈ p, c ≠ 0) (hfit : 4 + p.length < 2 ^ w) :
    base254_decode w (98 :: 254 :: v :: v :: (p ++ 0 :: t))
        = Run.returns (some ⟨sentinel_decode v p, p.length⟩) ∧
      dataLen w (98 :: 254 :: v :: v :: (p ++ 0 :: t)) 0 = Run.returns p.length ∧
      ∀ q r, p = q ++ r →
        decode_loop v v 0 p.length (q ++ (r ++ 0 :: t)) 4 false []
          = decode_loop v v 0 p.length (r ++ 0 :: t) (4 + q.length) false
              (sentinel_decode v q) := by
  refine ⟨?_, ?_, ?_⟩
  · unfold base254_decode
    rw [decode_n_scan w v v p (0 :: t) 0 hv hv hp (Or.inl ⟨rfl, t, rfl⟩) hfit, spec_scan_sentinel,
      sentinel_decode_length]
  · exact dataLen_header w v v p (0 :: t) 0 hv hv hp (Or.inl ⟨rfl, t, rfl⟩) hfit
  · intro q r hqr
    have hq : ∀ c ∈ q, c ≠ 0 := fun c hc => hp c (by rw [hqr]; exact List.mem_append_left r hc)
    have hlen : q.length ≤ p.length := by rw [hqr, List.length_append]; omega
    rw [decode_loop_scan v v 0 p.length (r ++ 0 :: t) q hq 4 false [] (Or.inl rfl)
      (by simpa using hlen), spec_scan_sentinel]
    rfl

/-- Witness of C11: consecutive literal marker bytes decode to consecutive zeros. -/
theorem sentinel_header_no_escape_witness :
    base254_decode 64 (98 :: 254 :: 7 :: 7 :: ([7, 7, 65, 7] ++ 0 :: []))
      = Run.returns (some ⟨[0, 0, 65, 0], 4⟩) :=
  (sentinel_header_no_escape 64 7 [7, 7, 65, 7] [] (by decide) (by decide) (by norm_num)).1

/-- C12: exact output size.  For markers in `[1,255]` the size
`base254_encode_with_escapes` computes is `4 + |S| + escapes + 1`, and the
buffer it returns has exactly that many bytes: header and payload bytes, all
non-zero, then the terminator at the last offset `requiredSize - 1`. -/
theorem encode_size_exact (w : Nat) (S : List Nat) (nr eb : Nat)
    (hnr : 1 ≤ nr ∧ nr ≤ 255) (heb : 1 ≤ eb ∧ eb ≤ 255)
    (hfit : 2 * S.length + 5 < 2 ^ w) :
    requiredSize w S nr eb = 4 + S.length + escapes nr eb S + 1 ∧
      ∃ buf, base254_encode_with_escapes w S nr eb = Run.returns buf ∧
        buf = [98, 254, nr, eb] ++ payload nr eb S ++ [0] ∧
        buf.length = requiredSize w S nr eb ∧
        buf[requiredSize w S nr eb - 1]? = some 0 ∧
        ∀ c ∈ [98, 254, nr, eb] ++ payload nr eb S, c ≠ 0 := by
  have hreq := requiredSize_eq w nr eb S hfit
  have hlen := payload_length nr eb S (by omega) (by omega)
  have hbl : ([98, 254, nr, eb] ++ payload nr eb S ++ [0]).length = requiredSize w S nr eb := by
    simp only [List.length_append, List.length_cons, List.length_nil]
    omega
  refine ⟨by omega, _, encode_with_escapes_eq w S nr eb (by omega) (by omega) hfit, rfl,
    hbl, ?_, ?_⟩
  · have hidx : requiredSize w S nr eb - 1 = ([98, 254, nr, eb] ++ payload nr eb S).length := by
      simp only [List.length_append, List.length_cons, List.length_nil]
      omega
    rw [hidx, List.getElem?_append_right (le_refl _)]
    simp
  · intro c hc
    rw [List.mem_append] at hc
    rcases hc with hc | hc
    · simp at hc; omega
    · exact payload_ne_zero nr eb (by omega) (by omega) S c hc

/-- Witness of C12 on `[5, 0, 6, 7]` with markers 5 and 6: 11 bytes. -/
theorem encode_size_exact_witness :
    requiredSize 64 [5, 0, 6, 7] 5 6 = 11 ∧
      base254_encode_with_escapes 64 [5, 0, 6, 7] 5 6
        = Run.returns [98, 254, 5, 6, 6, 5, 5, 6, 6, 7, 0] := by
  obtain ⟨h1, buf, h2, h3, _⟩ :=
    encode_size_exact 64 [5, 0, 6, 7] 5 6 (by decide) (by decide) (by norm_num)
  subst h3
  exact ⟨h1.trans (by decide), h2.trans (by decide)⟩

/-- C13, failing input: on the 255 bytes `1, 2, ..., 255` the encoder selects
the markers 1 and 2 and returns 262 bytes, one more than the documented worst
case `N + 5 + N/128 = 261`. -/
theorem documented_worst_case_exceeded :
    base254_encode 64 (List.range' 1 255)
        = Run.returns (spec_encode (List.range' 1 255) 1 2) ∧
      (spec_encode (List.range' 1 255) 1 2).length = 262 ∧
      255 + 5 + 255 / 128 = 261 := by
  decide

/-- C14: bounded and unbounded decode agree when the limit reaches the
terminator.  On a buffer whose first zero byte is at offset `t = |q|`, at
least 4: with a limit `n ≥ t`, `base254_decode_n` has the outcome of
`base254_decode`; with a limit `4 ≤ n < t` it has the outcome of
`base254_decode` on the buffer with a zero byte put at offset `n`. -/
theorem bounded_unbounded_agree (w : Nat) (q rest : List Nat) (n : Nat)
    (hq : ∀ c ∈ q, c ≠ 0) (h4 : 4 ≤ q.length) :
    (q.length ≤ n →
        base254_decode_n w (q ++ 0 :: rest) n = base254_decode w (q ++ 0 :: rest)) ∧
      (4 ≤ n → n < q.length →
        base254_decode_n w (q ++ 0 :: rest) n
          = base254_decode w ((q ++ 0 :: rest).set n 0)) := by
  constructor
  · intro hn
    have hstop : (n = 0 ∧ ∃ t, 0 :: rest = 0 :: t) ∨ (q.length < n ∧ ∃ t, 0 :: rest = 0 :: t) ∨
        n = q.length := by
      by_cases h : n = q.length
      · exact Or.inr (Or.inr h)
      · exact Or.inr (Or.inl ⟨by omega, rest, rfl⟩)
    unfold base254_decode
    rw [decode_n_stop w q (0 :: rest) n hq h4 hstop,
      decode_n_stop w q (0 :: rest) 0 hq h4 (Or.inl ⟨rfl, rest, rfl⟩)]
  · intro hn4 hnt
    have htq : ∀ c ∈ q.take n, c ≠ 0 := fun c hc => hq c (List.mem_of_mem_take hc)
    have htl : (q.take n).length = n := by
      rw [List.length_take]; omega
    have hset : (q ++ 0 :: rest).set n 0
        = q.take n ++ 0 :: (q.drop (n + 1) ++ 0 :: rest) := by
      rw [List.set_append_left n 0 hnt, List.set_eq_take_append_cons_drop, if_pos hnt]
      simp
    have hsplit : q ++ 0 :: rest = q.take n ++ (q.drop n ++ 0 :: rest) := by
      rw [← List.append_assoc, List.take_append_drop]
    unfold base254_decode
    rw [hset, decode_n_stop w (q.take n) _ 0 htq (by omega) (Or.inl ⟨rfl, _, rfl⟩)]
    conv_lhs => rw [hsplit]
    rw [decode_n_stop w (q.take n) _ n htq (by omega) (Or.inr (Or.inr htl.symm))]

/-- Witness of C14 on `b, 254, 1, 2, 65, 2, 66, 0` with limits 9 and 6. -/
theorem bounded_unbounded_agree_witness :
    base254_decode_n 64 ([98, 254, 1, 2, 65, 2, 66] ++ 0 :: []) 9
        = base254_decode 64 ([98, 254, 1, 2, 65, 2, 66] ++ 0 :: []) ∧
      base254_decode_n 64 ([98, 254, 1, 2, 65, 2, 66] ++ 0 :: []) 6
        = base254_decode 64 (([98, 254, 1, 2, 65, 2, 66] ++ 0 :: []).set 6 0) :=
  ⟨(bounded_unbounded_agree 64 [98, 254, 1, 2, 65, 2, 66] [] 9 (by decide) (by decide)).1
      (by decide),
    (bounded_unbounded_agree 64 [98, 254, 1, 2, 65, 2, 66] [] 6 (by decide) (by decide)).2
      (by decide) (by decide)⟩

/-- C15: the limit confines what the decoder looks at.  With a limit `n ≥ 4`,
`base254_decode_n` has the same outcome on two buffers that agree on their
first `n` bytes. -/
theorem limit_confines_decoder (w n : Nat) (b1 b2 : List Nat) (hn : 4 ≤ n)
    (hagree : b1.take n = b2.take n) :
    base254_decode_n w b1 n = base254_decode_n w b2 n := by
  rw [← decode_n_take w b1 n hn, hagree, decode_n_take w b2 n hn]

/-- Witness of C15 on two buffers that differ from offset 6 on, with limit 6. -/
theorem limit_confines_decoder_witness :
    base254_decode_n 64 [98, 254, 1, 2, 1, 66, 77, 78] 6
        = base254_decode_n 64 [98, 254, 1, 2, 1, 66, 0] 6 ∧
      base254_decode_n 64 [98, 254, 1, 2, 1, 66, 0] 6 = Run.returns (some ⟨[0, 66], 2⟩) :=
  ⟨limit_confines_decoder 64 6 [98, 254, 1, 2, 1, 66, 77, 78] [98, 254, 1, 2, 1, 66, 0]
      (by decide) (by decide),
    by decide⟩

/-- C16: the decoder output fits its allocation.  On a buffer `b`, 254, two
non-zero markers, then non-zero payload bytes `p` up to the first zero byte or
the limit (0 or at least 4), `base254_decode_n` allocates `|p|` bytes, every
store of the body scan is inside the allocation (the run is defined) and the
returned size is at most `|p|`. -/
theorem decoder_output_fits (w nr eb : Nat) (p tail : List Nat) (n : Nat)
    (hnr : nr ≠ 0) (heb : eb ≠ 0) (hp : ∀ c ∈ p, c ≠ 0)
    (hstop : (n = 0 ∧ ∃ t, tail = 0 :: t) ∨ (4 + p.length < n ∧ ∃ t, tail = 0 :: t) ∨
      n = 4 + p.length)
    (hfit : 4 + p.length < 2 ^ w) :
    dataLen w (98 :: 254 :: nr :: eb :: (p ++ tail)) n = Run.returns p.length ∧
      ∃ d, base254_decode_n w (98 :: 254 :: nr :: eb :: (p ++ tail)) n = Run.returns (some d) ∧
        d.size = d.data.length ∧ d.size ≤ p.length :=
  ⟨dataLen_header w nr eb p tail n hnr heb hp hstop hfit,
    _, decode_n_scan w nr eb p tail n hnr heb hp hstop hfit, rfl,
    spec_scan_length_le nr eb p false⟩

/-- Witness of C16 on a payload with one escape pair and limit 8. -/
theorem decoder_output_fits_witness :
    dataLen 64 (98 :: 254 :: 1 :: 2 :: ([2, 1, 65, 1] ++ [])) 8 = Run.returns 4 ∧
      ∃ d, base254_decode_n 64 (98 :: 254 :: 1 :: 2 :: ([2, 1, 65, 1] ++ [])) 8
          = Run.returns (some d) ∧
        d.size = d.data.length ∧ d.size ≤ [2, 1, 65, 1].length :=
  decoder_output_fits 64 1 2 [2, 1, 65, 1] [] 8 (by decide) (by decide) (by decide)
    (Or.inr (Or.inr rfl)) (by norm_num)

/-- C17: exact condition for the marker round trip.  For markers in `[1,255]`
the encoder returns a buffer, and decoding it gives back `S` with size `|S|`
if and only if the markers differ or the null replacement does not occur in `S`. -/
theorem roundtrip_with_markers_iff (w : Nat) (S : List Nat) (nr eb : Nat)
    (hnr : 1 ≤ nr ∧ nr ≤ 255) (heb : 1 ≤ eb ∧ eb ≤ 255)
    (hfit : 2 * S.length + 5 < 2 ^ w) :
    ∃ enc, base254_encode_with_escapes w S nr eb = Run.returns enc ∧
      (base254_decode w enc = Run.returns (some ⟨S, S.length⟩) ↔ (nr ≠ eb ∨ nr ∉ S)) := by
  refine ⟨_, encode_with_escapes_eq w S nr eb (by omega) (by omega) hfit, ?_, ?_⟩
  · intro hdec
    by_contra hcon
    have heq : nr = eb := by
      by_contra h; exact hcon (Or.inl h)
    have hmem : nr ∈ S := by
      by_contra h; exact hcon (Or.inr h)
    subst heq
    have hlen := payload_length nr nr S (by omega) (by omega)
    have hle := escapes_le_length nr nr S
    have hpos := escapes_pos_of_mem nr S hmem
    have hscan := decode_n_scan w nr nr (payload nr nr S) [0] 0 (by omega) (by omega)
      (payload_ne_zero nr nr (by omega) (by omega) S) (Or.inl ⟨rfl, [], rfl⟩) (by omega)
    unfold base254_decode at hdec
    simp only [List.cons_append, List.nil_append, List.append_assoc] at hdec
    rw [hscan, spec_scan_sentinel, sentinel_decode_length] at hdec
    simp only [Run.returns.injEq, Option.some.injEq, base254_data.mk.injEq] at hdec
    omega
  · intro hcond
    exact decode_spec_encode w S nr eb (by omega) (by omega) hfit hcond

/-- Witness of C17 on `[5]` with both markers 5, where the round trip fails. -/
theorem roundtrip_with_markers_iff_witness :
    ∃ enc, base254_encode_with_escapes 64 [5] 5 5 = Run.returns enc ∧
      (base254_decode 64 enc = Run.returns (some ⟨[5], [5].length⟩) ↔ (5 ≠ 5 ∨ 5 ∉ [5])) :=
  roundtrip_with_markers_iff 64 [5] 5 5 (by decide) (by decide) (by norm_num)

/-- C18, failing input: the buffer `b, 254, 0, 7, 9, 0` passes the validation
of `base254_decode_n` with no limit and with limit 6, its first zero byte is at
offset 2, and `strlen(data)-4` wraps around to `2^64 - 2`; `safe_malloc` cannot
satisfy that request and aborts the run before the body scan. -/
theorem size_subtraction_wraps :
    strlen [98, 254, 0, 7, 9, 0] = Run.returns 2 ∧
      strnlen [98, 254, 0, 7, 9, 0] 6 = Run.returns 2 ∧
      dataLen 64 [98, 254, 0, 7, 9, 0] 0 = Run.returns (2 ^ 64 - 2) ∧
      dataLen 64 [98, 254, 0, 7, 9, 0] 6 = Run.returns (2 ^ 64 - 2) ∧
      base254_decode_n 64 [98, 254, 0, 7, 9, 0] 0 = Run.aborted ∧
      base254_decode_n 64 [98, 254, 0, 7, 9, 0] 6 = Run.aborted := by
  decide

/-- C19: true expansion bound of the top-level encoder.  The buffer
`base254_encode` returns has `N + 5 + e` bytes, where `e` is the number of
occurrences of the two selected markers in `S` when they differ and 0 when
they are equal, and `e ≤ 2N/255` (rounded down). -/
theorem encode_expansion_bound (w : Nat) (S : List Nat) (hfit : 2 * S.length + 5 < 2 ^ w) :
    ∃ buf, base254_encode w S = Run.returns buf ∧
      buf.length = S.length + 5 +
        (if (markers w S).1 ≠ (markers w S).2
          then S.count (markers w S).1 + S.count (markers w S).2 else 0) ∧
      (if (markers w S).1 ≠ (markers w S).2
          then S.count (markers w S).1 + S.count (markers w S).2 else 0)
        ≤ 2 * S.length / 255 := by
  obtain ⟨h1, h2, h3, h4, _⟩ := markers_spec w S (by omega)
  obtain ⟨hv1, hv2, hvm, hall⟩ := min_scan_spec w S (by omega)
  have hlen := payload_length (markers w S).1 (markers w S).2 S (by omega) (by omega)
  have hbuf : ([98, 254, (markers w S).1, (markers w S).2]
      ++ payload (markers w S).1 (markers w S).2 S ++ [0]).length
      = S.length + 5 + escapes (markers w S).1 (markers w S).2 S := by
    simp only [List.length_append, List.length_cons, List.length_nil]
    omega
  refine ⟨_, encode_with_escapes_eq w S _ _ (by omega) (by omega) hfit, ?_, ?_⟩
  · rw [hbuf]
    by_cases hne : (markers w S).1 ≠ (markers w S).2
    · rw [if_pos hne, escapes_eq_count _ _ S hne]
    · rw [if_neg hne]
      have heq : (markers w S).2 = (markers w S).1 := by
        by_contra h; exact hne (fun e => h e.symm)
      have hm0 : minUse w S = 0 := by
        by_contra hpos
        have hmk : markers w S = (minUsedChar w S, secondMinUsedChar w S) := by
          unfold markers
          rw [if_neg hpos]
        obtain ⟨_, _, he3, _⟩ := second_scan_spec w S (by omega) hpos
        rw [hmk] at heq
        dsimp only at heq
        exact he3 heq
      rw [heq, escapes_self, markers_fst, ← hvm, hm0]
  · by_cases hne : (markers w S).1 ≠ (markers w S).2
    · rw [if_pos hne]
      have hpos : minUse w S ≠ 0 := by
        intro h0
        apply hne
        unfold markers
        rw [if_pos h0]
      have hmk : markers w S = (minUsedChar w S, secondMinUsedChar w S) := by
        unfold markers
        rw [if_neg hpos]
      obtain ⟨he1, he2, _, hsec⟩ := second_scan_spec w S (by omega) hpos
      rw [hmk]
      dsimp only
      exact least_two_bound S _ _ ⟨hv1, hv2⟩ ⟨he1, he2⟩
        (fun y hy1 hy2 => (hall y hy1 hy2).1)
        (fun y hy1 hy2 hy3 => (hsec y hy1 hy2 hy3).1)
    · rw [if_neg hne]
      exact Nat.zero_le _

/-- Witness of C19 on `[0, 1, 65, 255]`. -/
theorem encode_expansion_bound_witness :
    2 * [0, 1, 65, 255].length + 5 < 2 ^ 64 ∧
    ∃ buf, base254_encode 64 [0, 1, 65, 255] = Run.returns buf ∧
      buf.length = [0, 1, 65, 255].length + 5 +
        (if (markers 64 [0, 1, 65, 255]).1 ≠ (markers 64 [0, 1, 65, 255]).2
          then [0, 1, 65, 255].count (markers 64 [0, 1, 65, 255]).1
            + [0, 1, 65, 255].count (markers 64 [0, 1, 65, 255]).2 else 0) ∧
      (if (markers 64 [0, 1, 65, 255]).1 ≠ (markers 64 [0, 1, 65, 255]).2
          then [0, 1, 65, 255].count (markers 64 [0, 1, 65, 255]).1
            + [0, 1, 65, 255].count (markers 64 [0, 1, 65, 255]).2 else 0)
        ≤ 2 * [0, 1, 65, 255].length / 255 :=
  ⟨by norm_num, encode_expansion_bound 64 [0, 1, 65, 255] (by norm_num)⟩

/-- C20: the write loop is never cut short by its bound test and never stores
outside the allocation.  For every input and any two marker bytes: at every
iteration `i < |S|` the offset `k` is below `requiredSize - 1`; the loop
equals the loop without the test and stores the whole payload; header,
payload and terminator occupy offsets below `requiredSize`, and the function
returns them at the start of its allocation. -/
theorem write_loop_guard_holds (w : Nat) (S : List Nat) (nr eb : Nat)
    (hfit : 2 * S.length + 5 < 2 ^ w) :
    (∀ S1 d S2, S = S1 ++ d :: S2 →
        ([98, 254, nr, eb] ++ payload nr eb S1).length
          < (requiredSize w S nr eb + 2 ^ w - 1) % 2 ^ w) ∧
      encode_loop w (requiredSize w S nr eb) nr eb S [98, 254, nr, eb]
        = encode_loop_unguarded (requiredSize w S nr eb) nr eb S [98, 254, nr, eb] ∧
      encode_loop w (requiredSize w S nr eb) nr eb S [98, 254, nr, eb]
        = Run.returns ([98, 254, nr, eb] ++ payload nr eb S) ∧
      ([98, 254, nr, eb] ++ payload nr eb S ++ [0]).length ≤ requiredSize w S nr eb ∧
      ∃ buf, base254_encode_with_escapes w S nr eb = Run.returns buf ∧
        buf.length = requiredSize w S nr eb ∧
        buf.take ([98, 254, nr, eb] ++ payload nr eb S ++ [0]).length
          = [98, 254, nr, eb] ++ payload nr eb S ++ [0] := by
  have hreq := requiredSize_eq w nr eb S hfit
  have hlen := payload_length_le nr eb S
  have hle := escapes_le_length nr eb S
  have hroom : ([98, 254, nr, eb] : List Nat).length + (payload nr eb S).length
      < requiredSize w S nr eb := by
    simp only [List.length_cons, List.length_nil]; omega
  have htot : ([98, 254, nr, eb] ++ payload nr eb S ++ [0]).length
      ≤ requiredSize w S nr eb := by
    simp only [List.length_append, List.length_cons, List.length_nil]; omega
  refine ⟨?_, ?_, encode_loop_eq w _ nr eb (by omega) S _ hroom, htot, _,
    encode_with_escapes_any w S nr eb hfit, ?_, ?_⟩
  · intro S1 d S2 hS
    have hguard : (requiredSize w S nr eb + 2 ^ w - 1) % 2 ^ w = requiredSize w S nr eb - 1 := by
      have h1 : requiredSize w S nr eb + 2 ^ w - 1 = (requiredSize w S nr eb - 1) + 2 ^ w := by
        omega
      rw [h1, Nat.add_mod_right, Nat.mod_eq_of_lt (by omega)]
    have h1 := payload_length_le nr eb S1
    have h2 : escapes nr eb S = escapes nr eb S1 + escapes nr eb (d :: S2) := by
      rw [hS, escapes_append]
    have h3 : S.length = S1.length + (S2.length + 1) := by
      rw [hS, List.length_append, List.length_cons]
    rw [hguard]
    simp only [List.length_append, List.length_cons, List.length_nil]
    omega
  · rw [encode_loop_eq w _ nr eb (by omega) S _ hroom,
      encode_loop_unguarded_eq _ nr eb S _ hroom]
  · rw [List.length_append, List.length_replicate]
    omega
  · exact List.take_left' rfl

/-- Witness of C20 on `[0, 0, 7]` with markers 0 and 7, where the computed
size 11 exceeds the 9 bytes stored. -/
theorem write_loop_guard_holds_witness :
    requiredSize 64 [0, 0, 7] 0 7 = 11 ∧
      encode_loop 64 (requiredSize 64 [0, 0, 7] 0 7) 0 7 [0, 0, 7] [98, 254, 0, 7]
        = Run.returns ([98, 254, 0, 7] ++ payload 0 7 [0, 0, 7]) ∧
      base254_encode_with_escapes 64 [0, 0, 7] 0 7
        = Run.returns [98, 254, 0, 7, 0, 0, 7, 7, 0, 0, 0] :=
  ⟨by decide,
    (write_loop_guard_holds 64 [0, 0, 7] 0 7 (by norm_num)).2.2.1,
    by decide⟩

end Base254
